import Mathlib

/-!
# go-athena: value coercion and the bracketed map/array parser (value.go)

A shallow embedding of `value.go` and theorems about it.

Conventions of the embedding.

* A Go `string` / `[]byte` is a `List Char`, one `Char` per byte.  Every
  comparison the source makes is against an ASCII byte, so a statement proved
  for all `List Char` holds in particular for all byte strings.
* A Go call that can end in three ways (value, returned `error`, panic) returns
  a `Res`.  A panic is never recovered in `value.go`, so it propagates through
  every caller.
* The functions of `value.go` are mutually recursive through
  `convertUnknownValue`.  That one callee is passed to the others as the
  parameter `cuv`, and `convertUnknownValue` itself recurses on a budget `fuel`
  that bounds the nesting depth of composites; `Res.outOfFuel` is the outcome
  of an exhausted budget and is not an outcome of the Go program.
* `strconv.ParseFloat` and `time.Parse` are taken as parameters (`Lib`).
  `strconv.ParseInt` and `strings.Split` are transcribed from the Go standard
  library for the arguments this file passes them (base 10, separator "=").
* `fmt.Println` in `parse` only writes to standard output and is left out.
* `convertRow` returns the destination slice as it is after the call next to
  the outcome; the library types of its arguments are given by the fields used.
* `classify`, `scanLoop` and `parseStep` restate the loop of `parse` for the
  theorems about its scan; `parseLoop_cons`, `parseLoop_eq_scan` and
  `parseLoop_step` prove that they agree with `parseLoop`.
-/

namespace Athena

/-- A Go string (or byte slice): the sequence of its bytes. -/
abbrev GoString := List Char

/-! ## Values, errors and outcomes -/

/-- A `float64` as returned by `strconv.ParseFloat`, by its IEEE-754 bits. -/
structure Float64 where
  bits : Nat
  deriving DecidableEq, Repr

/-- A `time.Time` as returned by `time.Parse`. -/
structure Time where
  unixNano : Int
  zone : GoString
  offset : Int
  deriving DecidableEq, Repr

/-- The dynamic values `convertValue` returns in an `interface{}`: `nil`,
`int64`, `bool`, `string`, `float64`, `time.Time`, `[]interface{}` and
`map[string]interface{}` (a map is its list of entries, keys distinct, in the
order the keys were first inserted). -/
inductive Value where
  | null
  | int (n : Int)
  | bool (b : Bool)
  | str (s : GoString)
  | float (f : Float64)
  | time (t : Time)
  | arr (xs : List Value)
  | map (kvs : List (GoString × Value))

/-- The two sentinel errors a `*strconv.NumError` wraps. -/
inductive NumErrKind where
  | ErrSyntax
  | ErrRange
  deriving DecidableEq, Repr

/-- The Go `error` values of this file. -/
inductive GoError where
  /-- The error `&strconv.NumError{Func, Num, Err}`. -/
  | numError (func : GoString) (num : GoString) (kind : NumErrKind)
  /-- The error of `fmt.Errorf(...)`, by its formatted message. -/
  | errorf (msg : GoString)
  /-- An error of `strconv.ParseFloat` or `time.Parse`. -/
  | lib (msg : GoString)
  deriving DecidableEq, Repr

/-- What a Go panic carries. -/
inductive GoPanic where
  /-- The runtime error: index out of range. -/
  | indexOutOfRange
  /-- The runtime error: slice bounds out of range. -/
  | sliceBoundsOutOfRange
  /-- The call `panic(err)`. -/
  | error (e : GoError)
  deriving DecidableEq, Repr

/-- Outcome of a Go call `(T, error)`: a value with a nil error, a non-nil
error returned to the caller, a panic, or (embedding only) exhausted fuel. -/
inductive Res (α : Type) where
  | ok (a : α)
  | err (e : GoError)
  | panic (p : GoPanic)
  | outOfFuel
  deriving DecidableEq, Repr

/-- The outcome is a non-nil `error` returned to the caller. -/
def Res.isErr {α : Type} : Res α → Bool
  | .err _ => true
  | _ => false

/-- The outcome is a panic. -/
def Res.isPanic {α : Type} : Res α → Bool
  | .panic _ => true
  | _ => false

/-- The outcome is a value (nil error). -/
def Res.isOk {α : Type} : Res α → Bool
  | .ok _ => true
  | _ => false

mutual
/-- Decidable equality of values. -/
def Value.decEq : (a b : Value) → Decidable (a = b)
  | .null, .null => isTrue rfl
  | .int a, .int b =>
    if h : a = b then isTrue (by rw [h]) else isFalse (fun e => h (Value.int.inj e))
  | .bool a, .bool b =>
    if h : a = b then isTrue (by rw [h]) else isFalse (fun e => h (Value.bool.inj e))
  | .str a, .str b =>
    if h : a = b then isTrue (by rw [h]) else isFalse (fun e => h (Value.str.inj e))
  | .float a, .float b =>
    if h : a = b then isTrue (by rw [h]) else isFalse (fun e => h (Value.float.inj e))
  | .time a, .time b =>
    if h : a = b then isTrue (by rw [h]) else isFalse (fun e => h (Value.time.inj e))
  | .arr a, .arr b =>
    match Value.decEqList a b with
    | isTrue h => isTrue (by rw [h])
    | isFalse h => isFalse (fun e => h (Value.arr.inj e))
  | .map a, .map b =>
    match Value.decEqMap a b with
    | isTrue h => isTrue (by rw [h])
    | isFalse h => isFalse (fun e => h (Value.map.inj e))
  | .null, .int _ => isFalse nofun
  | .null, .bool _ => isFalse nofun
  | .null, .str _ => isFalse nofun
  | .null, .float _ => isFalse nofun
  | .null, .time _ => isFalse nofun
  | .null, .arr _ => isFalse nofun
  | .null, .map _ => isFalse nofun
  | .int _, .null => isFalse nofun
  | .int _, .bool _ => isFalse nofun
  | .int _, .str _ => isFalse nofun
  | .int _, .float _ => isFalse nofun
  | .int _, .time _ => isFalse nofun
  | .int _, .arr _ => isFalse nofun
  | .int _, .map _ => isFalse nofun
  | .bool _, .null => isFalse nofun
  | .bool _, .int _ => isFalse nofun
  | .bool _, .str _ => isFalse nofun
  | .bool _, .float _ => isFalse nofun
  | .bool _, .time _ => isFalse nofun
  | .bool _, .arr _ => isFalse nofun
  | .bool _, .map _ => isFalse nofun
  | .str _, .null => isFalse nofun
  | .str _, .int _ => isFalse nofun
  | .str _, .bool _ => isFalse nofun
  | .str _, .float _ => isFalse nofun
  | .str _, .time _ => isFalse nofun
  | .str _, .arr _ => isFalse nofun
  | .str _, .map _ => isFalse nofun
  | .float _, .null => isFalse nofun
  | .float _, .int _ => isFalse nofun
  | .float _, .bool _ => isFalse nofun
  | .float _, .str _ => isFalse nofun
  | .float _, .time _ => isFalse nofun
  | .float _, .arr _ => isFalse nofun
  | .float _, .map _ => isFalse nofun
  | .time _, .null => isFalse nofun
  | .time _, .int _ => isFalse nofun
  | .time _, .bool _ => isFalse nofun
  | .time _, .str _ => isFalse nofun
  | .time _, .float _ => isFalse nofun
  | .time _, .arr _ => isFalse nofun
  | .time _, .map _ => isFalse nofun
  | .arr _, .null => isFalse nofun
  | .arr _, .int _ => isFalse nofun
  | .arr _, .bool _ => isFalse nofun
  | .arr _, .str _ => isFalse nofun
  | .arr _, .float _ => isFalse nofun
  | .arr _, .time _ => isFalse nofun
  | .arr _, .map _ => isFalse nofun
  | .map _, .null => isFalse nofun
  | .map _, .int _ => isFalse nofun
  | .map _, .bool _ => isFalse nofun
  | .map _, .str _ => isFalse nofun
  | .map _, .float _ => isFalse nofun
  | .map _, .time _ => isFalse nofun
  | .map _, .arr _ => isFalse nofun
/-- Decidable equality of sequences of values. -/
def Value.decEqList : (a b : List Value) → Decidable (a = b)
  | [], [] => isTrue rfl
  | x :: xs, y :: ys =>
    match Value.decEq x y, Value.decEqList xs ys with
    | isTrue h, isTrue h' => isTrue (by rw [h, h'])
    | isFalse h, _ => isFalse (fun e => h (List.cons.inj e).1)
    | _, isFalse h => isFalse (fun e => h (List.cons.inj e).2)
  | [], _ :: _ => isFalse nofun
  | _ :: _, [] => isFalse nofun
/-- Decidable equality of entry lists. -/
def Value.decEqMap : (a b : List (GoString × Value)) → Decidable (a = b)
  | [], [] => isTrue rfl
  | (k, x) :: xs, (l, y) :: ys =>
    if hk : k = l then
      match Value.decEq x y, Value.decEqMap xs ys with
      | isTrue h, isTrue h' => isTrue (by rw [hk, h, h'])
      | isFalse h, _ => isFalse (fun e => h (Prod.mk.inj (List.cons.inj e).1).2)
      | _, isFalse h => isFalse (fun e => h (List.cons.inj e).2)
    else isFalse (fun e => hk (Prod.mk.inj (List.cons.inj e).1).1)
  | [], _ :: _ => isFalse nofun
  | _ :: _, [] => isFalse nofun
end

instance : DecidableEq Value := Value.decEq

/-- A Go `map[string]interface{}`: its entries, keys pairwise distinct. -/
abbrev GoMap := List (GoString × Value)

/-- The assignment `m[key] = v`: overwrite the entry of `key`, or add one. -/
def GoMap.insert : GoMap → GoString → Value → GoMap
  | [], key, v => [(key, v)]
  | (k, x) :: m, key, v =>
    if k = key then (k, v) :: m else (k, x) :: GoMap.insert m key v

/-- The read `m[key]`. -/
def GoMap.lookup : GoMap → GoString → Option Value
  | [], _ => none
  | (k, x) :: m, key => if k = key then some x else GoMap.lookup m key

/-! ## The standard-library functions the file calls -/

/-- The functions of the Go standard library taken as parameters:
`strconv.ParseFloat(s, bitSize)` and `time.Parse(layout, value)`. -/
structure Lib where
  ParseFloat : GoString → Nat → Except GoError Float64
  timeParse : GoString → GoString → Except GoError Time

/-- A library whose float and time parsers reject every text; the closed
examples below use it, and none of them reaches a float or time branch. -/
def Lib.rejecting : Lib where
  ParseFloat := fun s _ => .error (.lib s)
  timeParse := fun _ s => .error (.lib s)

/-- The digit loop of `strconv.ParseUint` for base 10 (`cutoff` is
`maxUint64/10 + 1`, arithmetic is on `uint64`): the value and the error kind,
if any.  A byte that is not a decimal digit is a syntax error; a value above
`maxVal` is a range error, reported at the digit that exceeds it. -/
def ParseUint.loop (maxVal : Nat) : GoString → Nat → Nat × Option NumErrKind
  | [], n => (n, none)
  | c :: cs, n =>
    if '0' ≤ c ∧ c ≤ '9' then
      let d := c.toNat - '0'.toNat
      if n ≥ (2 ^ 64 - 1) / 10 + 1 then (maxVal, some .ErrRange)
      else
        let n10 := (n * 10) % 2 ^ 64
        let n1 := (n10 + d) % 2 ^ 64
        if n1 < n10 ∨ n1 > maxVal then (maxVal, some .ErrRange)
        else ParseUint.loop maxVal cs n1
    else (0, some .ErrSyntax)

/-- The call `strconv.ParseUint(s, 10, bitSize)` for `1 ≤ bitSize ≤ 64`. -/
def ParseUint (s : GoString) (bitSize : Nat) : Nat × Option NumErrKind :=
  if s = [] then (0, some .ErrSyntax)
  else ParseUint.loop (2 ^ bitSize - 1) s 0

/-- The conversion `int64(x)` of an integer, wrapping modulo `2^64`. -/
def int64 (x : Int) : Int := (x + 2 ^ 63) % 2 ^ 64 - 2 ^ 63

/-- The call `strconv.ParseInt(s, 10, bitSize)` for `1 ≤ bitSize ≤ 64`: the
`int64` and the error (`none` is `nil`). -/
def ParseInt (s : GoString) (bitSize : Nat) : Int × Option GoError :=
  if s = [] then (0, some (.numError "ParseInt".toList s .ErrSyntax))
  else
    let neg : Bool := s.head? = some '-'
    let t : GoString := if s.head? = some '+' ∨ s.head? = some '-' then s.tail else s
    match ParseUint t bitSize with
    | (_, some .ErrSyntax) => (0, some (.numError "ParseInt".toList s .ErrSyntax))
    | (un, _) =>
      let cutoff : Nat := 2 ^ (bitSize - 1)
      if !neg ∧ un ≥ cutoff then
        (int64 ((cutoff : Int) - 1), some (.numError "ParseInt".toList s .ErrRange))
      else if neg ∧ un > cutoff then
        (int64 (-int64 (cutoff : Int)), some (.numError "ParseInt".toList s .ErrRange))
      else
        let n := int64 (un : Int)
        (if neg then int64 (-n) else n, none)

/-- The call `strings.Split(s, sep)` for a one-byte separator `sep`: the
pieces of `s` between the occurrences of `sep` (one more than there are
occurrences). -/
def Split : GoString → Char → List GoString
  | [], _ => [[]]
  | c :: cs, sep =>
    if c = sep then [] :: Split cs sep
    else
      match Split cs sep with
      | [] => [[c]]
      | piece :: pieces => (c :: piece) :: pieces

/-! ## value.go -/

/-- The layout constants of `value.go`. -/
def TimestampLayout : GoString := "2006-01-02 15:04:05.999".toList

/-- Layout of a timestamp with a time zone. -/
def TimestampWithTimeZoneLayout : GoString := "2006-01-02 15:04:05.999 MST".toList

/-- Layout of a date. -/
def DateLayout : GoString := "2006-01-02".toList

/-- The function `addToMap`: `strings.Split(string(currentValue), "=")`, then
`keyVal[0], keyVal[1]` (a panic when the split has one piece only), then
`convertUnknownValue(val)` and `mapContainer[key] = realValue`.  The result is
the map after the call (a Go map is a reference, the caller sees the
assignment). -/
def addToMap (cuv : GoString → Res Value) (mapContainer : GoMap)
    (currentValue : GoString) : Res GoMap :=
  match Split currentValue '=' with
  | key :: val :: _ =>
    match cuv val with
    | .ok realValue => .ok (mapContainer.insert key realValue)
    | .err e => .err e
    | .panic p => .panic p
    | .outOfFuel => .outOfFuel
  | _ => .panic .indexOutOfRange

/-- The function `addToArray`: `convertUnknownValue(string(currentValue))`,
then `arrayContainer = append(arrayContainer, realValue)`.  The assignment is
to the parameter, the callee's own copy of the slice header, so the result,
the slice as the caller holds it after the call, is the slice passed in. -/
def addToArray (cuv : GoString → Res Value) (arrayContainer : List Value)
    (currentValue : GoString) : Res (List Value) :=
  match cuv currentValue with
  | .ok _realValue => .ok arrayContainer
  | .err e => .err e
  | .panic p => .panic p
  | .outOfFuel => .outOfFuel

/-- The local variables of `parse` that its loop updates. -/
structure ParseState where
  mapContainer : GoMap
  arrayContainer : List Value
  currentValue : GoString
  ignoreArray : Int
  ignoreMap : Int

/-- The state of `parse` before its loop. -/
def ParseState.init : ParseState :=
  ⟨[], [], [], 0, 0⟩

/-- The call `addToMap(mapContainer, currentValue)` or
`addToArray(arrayContainer, currentValue)` that `parse` makes for an element,
by `isMap`; the state after it, `currentValue` not yet reset. -/
def finalise (cuv : GoString → Res Value) (isMap : Bool) (st : ParseState) :
    Res ParseState :=
  if isMap then
    match addToMap cuv st.mapContainer st.currentValue with
    | .ok m => .ok { st with mapContainer := m }
    | .err e => .err e
    | .panic p => .panic p
    | .outOfFuel => .outOfFuel
  else
    match addToArray cuv st.arrayContainer st.currentValue with
    | .ok a => .ok { st with arrayContainer := a }
    | .err e => .err e
    | .panic p => .panic p
    | .outOfFuel => .outOfFuel

/-- The `for` loop of `parse` over `values`.  The index `i` is given by the
bytes before it, latest first (`before`, so `values[i-1]` is its head and
`i = before.length`), and the bytes from `i` on (the second argument, so
`values[i]` is its head and `values[i+1]`, when `i < len(values)-1`, the byte
after it).  The counters are Go `int`s and `%` is Go's
truncated remainder.  The result is the state when the loop ends, or the
failure or panic of the element call that ended it early. -/
def parseLoop (cuv : GoString → Res Value) (isMap : Bool) :
    GoString → GoString → ParseState → Res ParseState
  | _, [], st => .ok st
  | before, c :: rest, st =>
    let startsValue : Bool := before = []
    let followsEqual : Bool := before.head? = some '='
    let followsCommaSpace : Bool :=
      before.head? = some ' ' ∧ before.tail.head? = some ','
    let followsDelimiter : Bool :=
      before.head? = some '\x7b' ∨ before.head? = some '['
    if (c = '[' ∨ c = '\x7b') ∧
        (startsValue ∨ followsEqual ∨ followsCommaSpace ∨ followsDelimiter) then
      if c = '[' then
        parseLoop cuv isMap (c :: before) rest
          { st with currentValue := st.currentValue ++ [c],
                    ignoreArray := st.ignoreArray + 1 }
      else
        parseLoop cuv isMap (c :: before) rest
          { st with currentValue := st.currentValue ++ [c],
                    ignoreMap := st.ignoreMap + 1 }
    else if (Int.tmod st.ignoreArray 2 = 1 ∧ c = ']') ∨
        (Int.tmod st.ignoreMap 1 = 0 ∧ c = '\x7d') then
      if c = ']' then
        parseLoop cuv isMap (c :: before) rest
          { st with currentValue := st.currentValue ++ [c],
                    ignoreArray := st.ignoreArray - 1 }
      else
        parseLoop cuv isMap (c :: before) rest
          { st with currentValue := st.currentValue ++ [c],
                    ignoreMap := st.ignoreMap - 1 }
    else if st.ignoreMap > 0 ∨ st.ignoreArray > 0 then
      parseLoop cuv isMap (c :: before) rest
        { st with currentValue := st.currentValue ++ [c] }
    else
      match rest with
      | [] =>
        parseLoop cuv isMap (c :: before) []
          { st with currentValue := st.currentValue ++ [c] }
      | d :: rest' =>
        if c = ',' ∧ d = ' ' then
          match finalise cuv isMap st with
          | .ok st' =>
            parseLoop cuv isMap (d :: c :: before) rest'
              { st' with currentValue := [] }
          | .err e => .err e
          | .panic p => .panic p
          | .outOfFuel => .outOfFuel
        else
          parseLoop cuv isMap (c :: before) (d :: rest')
            { st with currentValue := st.currentValue ++ [c] }

/-- The function `parse`: `values := val[1 : len(val)-1]` (a panic when `val`
has fewer than two bytes), the loop, the call for the last element when
`len(currentValue) > 0`, and the container of the mode. -/
def parse (cuv : GoString → Res Value) (val : GoString) (isMap : Bool) : Res Value :=
  if val.length < 2 then .panic .sliceBoundsOutOfRange
  else
    let values := (val.drop 1).take (val.length - 2)
    match parseLoop cuv isMap [] values ParseState.init with
    | .ok st =>
      if st.currentValue.length > 0 then
        match finalise cuv isMap st with
        | .ok st' => if isMap then .ok (.map st'.mapContainer) else .ok (.arr st'.arrayContainer)
        | .err e => .err e
        | .panic p => .panic p
        | .outOfFuel => .outOfFuel
      else if isMap then .ok (.map st.mapContainer) else .ok (.arr st.arrayContainer)
    | .err e => .err e
    | .panic p => .panic p
    | .outOfFuel => .outOfFuel

/-- The function `parseMap`. -/
def parseMap (cuv : GoString → Res Value) (val : GoString) : Res Value :=
  parse cuv val true

/-- The function `parseArray`. -/
def parseArray (cuv : GoString → Res Value) (val : GoString) : Res Value :=
  parse cuv val false

/-- A `(T, error)` of the standard library returned as it is. -/
def Res.ofExcept {α : Type} (f : α → Value) : Except GoError α → Res Value
  | .ok a => .ok (f a)
  | .error e => .err e

/-- The return of `strconv.ParseInt(val, 10, bitSize)` as it is: the `int64`
with a nil error, or the error (the `int64` that comes with a non-nil error is
not kept). -/
def Res.ofParseInt (r : Int × Option GoError) : Res Value :=
  match r.2 with
  | none => .ok (.int r.1)
  | some e => .err e

/-- The function `convertValue(athenaType, val)`. -/
def convertValue (lib : Lib) (cuv : GoString → Res Value)
    (athenaType : GoString) (val : GoString) : Res Value :=
  if val = [] then .ok .null
  else if athenaType = "smallint".toList then Res.ofParseInt (ParseInt val 16)
  else if athenaType = "integer".toList then Res.ofParseInt (ParseInt val 32)
  else if athenaType = "bigint".toList then Res.ofParseInt (ParseInt val 64)
  else if athenaType = "boolean".toList then
    if val = "true".toList then .ok (.bool true)
    else if val = "false".toList then .ok (.bool false)
    else .err (.errorf ("cannot parse \x27".toList ++ val ++ "\x27 as boolean".toList))
  else if athenaType = "float".toList then Res.ofExcept Value.float (lib.ParseFloat val 32)
  else if athenaType = "double".toList ∨ athenaType = "decimal".toList then
    Res.ofExcept Value.float (lib.ParseFloat val 64)
  else if athenaType = "varchar".toList ∨ athenaType = "string".toList then .ok (.str val)
  else if athenaType = "timestamp".toList then
    Res.ofExcept Value.time (lib.timeParse TimestampLayout val)
  else if athenaType = "timestamp with time zone".toList then
    Res.ofExcept Value.time (lib.timeParse TimestampWithTimeZoneLayout val)
  else if athenaType = "date".toList then
    Res.ofExcept Value.time (lib.timeParse DateLayout val)
  else if athenaType = "struct".toList then
    .panic (.error (.errorf ("cannot parse \x60".toList ++ val ++ "\x60 as struct".toList)))
  else if athenaType = "map".toList then parseMap cuv val
  else if athenaType = "array".toList then parseArray cuv val
  else if athenaType = "row".toList then parseMap cuv val
  else
    .panic (.error (.errorf ("unknown type \x60".toList ++ athenaType ++
      "\x60 with value ".toList ++ val)))

/-- The function `convertUnknownValue(v)`, with `fuel` bounding the depth of
the nested composites it descends into. -/
def convertUnknownValue (lib : Lib) : Nat → GoString → Res Value
  | 0, _ => .outOfFuel
  | fuel + 1, v =>
    if (ParseInt v 16).2 = none then
      convertValue lib (convertUnknownValue lib fuel) "smallint".toList v
    else if (ParseInt v 32).2 = none then
      convertValue lib (convertUnknownValue lib fuel) "integer".toList v
    else if (ParseInt v 64).2 = none then
      convertValue lib (convertUnknownValue lib fuel) "bigint".toList v
    else
      match v.head?, v.getLast? with
      | some first, some last =>
        if first = '[' ∧ last = ']' then parseArray (convertUnknownValue lib fuel) v
        else if first = '\x7b' ∧ last = '\x7d' then parseMap (convertUnknownValue lib fuel) v
        else convertValue lib (convertUnknownValue lib fuel) "string".toList v
      | _, _ => .panic .indexOutOfRange


/-- Modelled from the spec: the column descriptor `athena.ColumnInfo` of the
protocol library, by its two fields that the row adapter and the spec use, the
column name and the type tag (`Type_` for the field `Type`; both pointers taken as non-nil).  A raw cell
(`*athena.Datum`) is taken as its text. -/
structure ColumnInfo where
  Name : GoString
  Type_ : GoString
  deriving DecidableEq

/-- The `for i, val := range in` loop of `convertRow` from index `i` on, with
the cells from `i` on and the destination `ret` as it is before the iteration:
the destination after the loop (a Go slice shares its array with the caller,
who sees every assignment `ret[i] = coerced` made before a failure or panic)
and the outcome.  The reads `columns[i]` and the write `ret[i]` panic when the
index is out of range. -/
def convertRow.loop (lib : Lib) (cuv : GoString → Res Value) (columns : List ColumnInfo) :
    Nat → List GoString → List Value → List Value × Res Unit
  | _, [], ret => (ret, .ok ())
  | i, val :: rest, ret =>
    match columns[i]? with
    | none => (ret, .panic .indexOutOfRange)
    | some col =>
      match convertValue lib cuv col.Type_ val with
      | .ok coerced =>
        if i < ret.length then convertRow.loop lib cuv columns (i + 1) rest (ret.set i coerced)
        else (ret, .panic .indexOutOfRange)
      | .err e => (ret, .err e)
      | .panic p => (ret, .panic p)
      | .outOfFuel => (ret, .outOfFuel)

/-- The function `convertRow(columns, in, ret)`: the destination after the call
and the outcome (`ok ()` is the nil error). -/
def convertRow (lib : Lib) (cuv : GoString → Res Value) (columns : List ColumnInfo)
    (cells : List GoString) (ret : List Value) : List Value × Res Unit :=
  convertRow.loop lib cuv columns 0 cells ret

/-! ## Definitions used to state the theorems -/

/-- Canonical decimal text of an integer. -/
def decimal : Int → GoString
  | .ofNat m => Nat.toDigits 10 m
  | .negSucc m => '-' :: Nat.toDigits 10 (m + 1)

/-- The byte is a decimal digit. -/
def isDigit (c : Char) : Prop := '0' ≤ c ∧ c ≤ '9'

instance (c : Char) : Decidable (isDigit c) := by unfold isDigit; infer_instance

/-- Value of a run of decimal digits read after the value `acc`. -/
def digitsValue : GoString → Nat → Nat
  | [], acc => acc
  | c :: cs, acc => digitsValue cs (acc * 10 + (c.toNat - '0'.toNat))

/-- The integer that a decimal numeral denotes: an optional sign `+` or `-`
followed by one or more decimal digits (leading zeros allowed); `none` for any
other text. -/
def numeralValue (s : GoString) : Option Int :=
  let ds : GoString := if s.head? = some '+' ∨ s.head? = some '-' then s.tail else s
  if ds ≠ [] ∧ ∀ c ∈ ds, isDigit c then
    some (if s.head? = some '-' then -(digitsValue ds 0 : Int) else (digitsValue ds 0 : Int))
  else none

/-- The integer fits a signed integer of `w` bits. -/
def fitsIn (w : Nat) (n : Int) : Prop := -(2 : Int) ^ (w - 1) ≤ n ∧ n ≤ 2 ^ (w - 1) - 1

instance (w : Nat) (n : Int) : Decidable (fitsIn w n) := by unfold fitsIn; infer_instance

/-- The narrowest of the tags `smallint`, `integer`, `bigint` whose range
contains `n`. -/
def narrowestTag (n : Int) : GoString :=
  if fitsIn 16 n then "smallint".toList
  else if fitsIn 32 n then "integer".toList
  else "bigint".toList

/-- The byte is none of `=`, `,`, `[`, `]` and the two braces. -/
def cleanByte (c : Char) : Prop :=
  c ≠ '=' ∧ c ≠ ',' ∧ c ≠ '[' ∧ c ≠ ']' ∧ c ≠ '\x7b' ∧ c ≠ '\x7d'

instance (c : Char) : Decidable (cleanByte c) := by unfold cleanByte; infer_instance

/-- The byte is neither a comma nor a bracket: inside an element, the scan of
`parse` appends it to `currentValue` whatever the state. -/
def plainByte (c : Char) : Prop :=
  c ≠ ',' ∧ c ≠ '[' ∧ c ≠ ']' ∧ c ≠ '\x7b' ∧ c ≠ '\x7d'

instance (c : Char) : Decidable (plainByte c) := by unfold plainByte; infer_instance

/-- The text `key=value` of a map entry. -/
def entryText (e : GoString × GoString) : GoString := e.1 ++ '=' :: e.2

/-- The map text of a list of entries: the entry texts joined by ", ", in
braces. -/
def mapText (entries : List (GoString × GoString)) : GoString :=
  '\x7b' :: List.intercalate ", ".toList (entries.map entryText) ++ ['\x7d']

/-- The array text of a list of integers: their canonical decimal texts
joined by ", ", in square brackets. -/
def arrayText (ns : List Int) : GoString :=
  '[' :: List.intercalate ", ".toList (ns.map decimal) ++ [']']

/-- The element calls of `parse` for the element texts `es`, in order, each
followed by the reset of `currentValue`; the first failure or panic ends it. -/
def emitAll (cuv : GoString → Res Value) (isMap : Bool) :
    List GoString → ParseState → Res ParseState
  | [], st => .ok st
  | e :: es, st =>
    match finalise cuv isMap { st with currentValue := e } with
    | .ok st' => emitAll cuv isMap es { st' with currentValue := [] }
    | .err err => .err err
    | .panic p => .panic p
    | .outOfFuel => .outOfFuel

/-- What `parse` does after its loop: the element call for a non-empty
`currentValue`, then the container of the mode. -/
def parseFinish (cuv : GoString → Res Value) (isMap : Bool) : Res ParseState → Res Value
  | .ok st =>
    if st.currentValue.length > 0 then
      match finalise cuv isMap st with
      | .ok st' => if isMap then .ok (.map st'.mapContainer) else .ok (.arr st'.arrayContainer)
      | .err e => .err e
      | .panic p => .panic p
      | .outOfFuel => .outOfFuel
    else if isMap then .ok (.map st.mapContainer) else .ok (.arr st.arrayContainer)
  | .err e => .err e
  | .panic p => .panic p
  | .outOfFuel => .outOfFuel

/-- The container of the mode, of a state. -/
def container (isMap : Bool) : Res ParseState → Res Value
  | .ok st => if isMap then .ok (.map st.mapContainer) else .ok (.arr st.arrayContainer)
  | .err e => .err e
  | .panic p => .panic p
  | .outOfFuel => .outOfFuel

/-- The closed set of type tags. -/
def closedTags : List GoString :=
  ["smallint".toList, "integer".toList, "bigint".toList, "boolean".toList, "float".toList,
   "double".toList, "decimal".toList, "varchar".toList, "string".toList, "timestamp".toList,
   "timestamp with time zone".toList, "date".toList, "map".toList, "array".toList,
   "row".toList, "struct".toList]

/-- What `convertValue` returns for the cell at index `i` of a row under the
type of column `i` (a panic when the row has no such column or cell). -/
def cellOutcome (lib : Lib) (cuv : GoString → Res Value) (columns : List ColumnInfo)
    (cells : List GoString) (i : Nat) : Res Value :=
  match columns[i]?, cells[i]? with
  | some col, some val => convertValue lib cuv col.Type_ val
  | _, _ => .panic .indexOutOfRange

/-- A row of two columns, `a` of type `integer` and `b` of type `boolean`. -/
def exampleColumns : List ColumnInfo :=
  [⟨"a".toList, "integer".toList⟩, ⟨"b".toList, "boolean".toList⟩]

/-- Two cells for `exampleColumns`; the second does not coerce. -/
def exampleCells : List GoString := ["7".toList, "TRUE".toList]

deriving instance DecidableEq for ParseState

/-- What one iteration of the loop of `parse` does with the byte `c`: it
appends `c` to `currentValue` and leaves the counters at `ia`, `im` (`push`),
or it takes `c` and the byte after it as the delimiter (`delimiter`). -/
inductive StepKind where
  | push (ia im : Int)
  | delimiter
  deriving DecidableEq

/-- The branch that one iteration of the loop of `parse` takes, from the bytes
before index `i` (latest first), the byte `c` at `i`, the byte `next` at
`i + 1` if there is one, and the two counters: the conditions of the loop
body, in its order. -/
def classify (before : GoString) (c : Char) (next : Option Char) (ia im : Int) : StepKind :=
  if (c = '[' ∨ c = '\x7b') ∧
      (before = [] ∨ before.head? = some '=' ∨
        (before.head? = some ' ' ∧ before.tail.head? = some ',') ∨
        (before.head? = some '\x7b' ∨ before.head? = some '[')) then
    if c = '[' then .push (ia + 1) im else .push ia (im + 1)
  else if (Int.tmod ia 2 = 1 ∧ c = ']') ∨ (Int.tmod im 1 = 0 ∧ c = '\x7d') then
    if c = ']' then .push (ia - 1) im else .push ia (im - 1)
  else if im > 0 ∨ ia > 0 then .push ia im
  else if c = ',' ∧ next = some ' ' then .delimiter
  else .push ia im

/-- The result of the scan of `parse` without its element calls. -/
structure ScanResult where
  /-- The values of `currentValue` at the delimiters the loop took, in order:
  the element texts handed to `addToMap` or `addToArray` inside the loop. -/
  elems : List GoString
  /-- The value of `currentValue` when the loop ends. -/
  last : GoString
  /-- The counter `ignoreArray` when the loop ends. -/
  ignoreArray : Int
  /-- The counter `ignoreMap` when the loop ends. -/
  ignoreMap : Int
  deriving DecidableEq

/-- The loop of `parse` with the element calls left out: from the bytes before
the index, the bytes from the index on, `currentValue` and the two counters, the
element texts the loop hands over at its delimiters, and `currentValue` and the
counters at its end.  Theorem `parseLoop_eq_scan` proves that `parseLoop` makes
these element calls, in this order, and ends in this state. -/
def scanLoop : GoString → GoString → GoString → Int → Int → ScanResult
  | _, [], cur, ia, im => ⟨[], cur, ia, im⟩
  | before, c :: rest, cur, ia, im =>
    match classify before c rest.head? ia im with
    | .push ia' im' => scanLoop (c :: before) rest (cur ++ [c]) ia' im'
    | .delimiter =>
      match rest with
      | [] => scanLoop (c :: before) [] (cur ++ [c]) ia im
      | d :: rest' =>
        let r := scanLoop (d :: c :: before) rest' [] ia im
        { r with elems := cur :: r.elems }

/-- The element texts that `parse` hands to `addToMap` or `addToArray` for the
interior `values`, in order: those of the loop, then `currentValue` at the end
of the loop when it is not empty. -/
def handed (values : GoString) : List GoString :=
  (scanLoop [] values [] 0 0).elems ++
    (if (scanLoop [] values [] 0 0).last.length > 0 then [(scanLoop [] values [] 0 0).last]
     else [])

/-- The outcome with the value changed by `f`. -/
def Res.map {α β : Type} (f : α → β) : Res α → Res β
  | .ok a => .ok (f a)
  | .err e => .err e
  | .panic p => .panic p
  | .outOfFuel => .outOfFuel

/-- The element call of `parse` for the element text `e`, on the two
containers: the containers after the call. -/
def handOne (cuv : GoString → Res Value) (isMap : Bool) (e : GoString)
    (c : GoMap × List Value) : Res (GoMap × List Value) :=
  if isMap then Res.map (fun m => (m, c.2)) (addToMap cuv c.1 e)
  else Res.map (fun a => (c.1, a)) (addToArray cuv c.2 e)

/-- The element calls of `parse` for the element texts `es`, in order, on the
two containers; the first failure or panic ends them. -/
def handAll (cuv : GoString → Res Value) (isMap : Bool) :
    List GoString → GoMap × List Value → Res (GoMap × List Value)
  | [], c => .ok c
  | e :: es, c =>
    match handOne cuv isMap e c with
    | .ok c' => handAll cuv isMap es c'
    | .err err => .err err
    | .panic p => .panic p
    | .outOfFuel => .outOfFuel

/-- One iteration of the loop of `parse`, at the byte `c` with the bytes
`before` it and the bytes `rest` after it: the bytes before the next index,
the bytes from it on and the state, or the failure or panic of the element
call.  Theorem `parseLoop_step` proves that `parseLoop` is the iteration of
this step. -/
def parseStep (cuv : GoString → Res Value) (isMap : Bool) (before : GoString) (c : Char)
    (rest : GoString) (st : ParseState) : Res (GoString × GoString × ParseState) :=
  match classify before c rest.head? st.ignoreArray st.ignoreMap with
  | .push ia im =>
    .ok (c :: before, rest,
      { st with currentValue := st.currentValue ++ [c], ignoreArray := ia, ignoreMap := im })
  | .delimiter =>
    Res.map (fun st' => (rest.head?.toList ++ c :: before, rest.tail,
      { st' with currentValue := [] })) (finalise cuv isMap st)

/-- The scan of `parse` gets from the first position and state to the second
in zero or more iterations of its loop. -/
inductive Reaches (cuv : GoString → Res Value) (isMap : Bool) :
    GoString × GoString × ParseState → GoString × GoString × ParseState → Prop where
  | refl (cfg : GoString × GoString × ParseState) : Reaches cuv isMap cfg cfg
  | step (before : GoString) (c : Char) (rest : GoString) (st : ParseState)
      (cfg cfg' : GoString × GoString × ParseState)
      (h : parseStep cuv isMap before c rest st = .ok cfg) (more : Reaches cuv isMap cfg cfg') :
      Reaches cuv isMap (before, c :: rest, st) cfg'

/-! ## strconv.ParseInt on decimal numerals -/

theorem isDigit_toNat {c : Char} (h : isDigit c) : 48 ≤ c.toNat ∧ c.toNat ≤ 57 := by
  obtain ⟨h0, h9⟩ := h
  have h0' : ('0' : Char).toNat ≤ c.toNat := h0
  have h9' : c.toNat ≤ ('9' : Char).toNat := h9
  have e0 : ('0' : Char).toNat = 48 := by decide
  have e9 : ('9' : Char).toNat = 57 := by decide
  omega

theorem le_digitsValue (ds : GoString) (acc : Nat) : acc ≤ digitsValue ds acc := by
  induction ds generalizing acc with
  | nil => exact Nat.le_refl _
  | cons c cs ih =>
    have := ih (acc * 10 + (c.toNat - '0'.toNat))
    simp only [digitsValue]
    omega

theorem ParseUint_loop_ok (maxVal : Nat) (hmax : maxVal < 2 ^ 64) (ds : GoString) (n : Nat)
    (hd : ∀ c ∈ ds, isDigit c) (hv : digitsValue ds n ≤ maxVal) :
    ParseUint.loop maxVal ds n = (digitsValue ds n, none) := by
  induction ds generalizing n with
  | nil => rfl
  | cons c cs ih =>
    have hc : isDigit c := hd c (List.mem_cons_self _ _)
    have hb := isDigit_toNat hc
    have h48 : ('0' : Char).toNat = 48 := by decide
    simp only [digitsValue] at hv ⊢
    have hle := le_digitsValue cs (n * 10 + (c.toNat - '0'.toNat))
    have hn1 : n * 10 + (c.toNat - '0'.toNat) ≤ maxVal := le_trans hle hv
    have e1 : (n * 10) % 2 ^ 64 = n * 10 := Nat.mod_eq_of_lt (by omega)
    have e2 : (n * 10 + (c.toNat - '0'.toNat)) % 2 ^ 64 = n * 10 + (c.toNat - '0'.toNat) :=
      Nat.mod_eq_of_lt (by omega)
    have hcut : ¬ n ≥ (2 ^ 64 - 1) / 10 + 1 := by omega
    have hov : ¬ (n * 10 + (c.toNat - '0'.toNat) < n * 10 ∨
        n * 10 + (c.toNat - '0'.toNat) > maxVal) := by omega
    have hc' : '0' ≤ c ∧ c ≤ '9' := hc
    rw [ParseUint.loop, if_pos hc']
    simp only [e1, e2, if_neg hcut, if_neg hov]
    exact ih _ (fun x hx => hd x (List.mem_cons_of_mem _ hx)) hv

theorem ParseUint_loop_range (maxVal : Nat) (ds : GoString) (n : Nat)
    (hd : ∀ c ∈ ds, isDigit c) (hn : n ≤ maxVal) (hv : maxVal < digitsValue ds n) :
    ParseUint.loop maxVal ds n = (maxVal, some .ErrRange) := by
  induction ds generalizing n with
  | nil => simp only [digitsValue] at hv; omega
  | cons c cs ih =>
    have hc : '0' ≤ c ∧ c ≤ '9' := hd c (List.mem_cons_self _ _)
    have hb := isDigit_toNat hc
    have h48 : ('0' : Char).toNat = 48 := by decide
    simp only [digitsValue] at hv
    rw [ParseUint.loop, if_pos hc]
    by_cases hcut : n ≥ (2 ^ 64 - 1) / 10 + 1
    · rw [if_pos hcut]
    · rw [if_neg hcut]
      have e1 : (n * 10) % 2 ^ 64 = n * 10 := Nat.mod_eq_of_lt (by omega)
      simp only [e1]
      by_cases hov : (n * 10 + (c.toNat - '0'.toNat)) % 2 ^ 64 < n * 10 ∨
          (n * 10 + (c.toNat - '0'.toNat)) % 2 ^ 64 > maxVal
      · rw [if_pos hov]
      · rw [if_neg hov]
        have e2 : (n * 10 + (c.toNat - '0'.toNat)) % 2 ^ 64 = n * 10 + (c.toNat - '0'.toNat) := by
          omega
        rw [e2] at hov ⊢
        exact ih _ (fun x hx => hd x (List.mem_cons_of_mem _ hx)) (by omega) hv

theorem ParseUint_loop_none (maxVal : Nat) (ds : GoString) (n : Nat)
    (hn : n ≤ maxVal) (h : (ParseUint.loop maxVal ds n).2 = none) :
    (∀ c ∈ ds, isDigit c) ∧ digitsValue ds n ≤ maxVal := by
  induction ds generalizing n with
  | nil => exact ⟨fun c hc => absurd hc (List.not_mem_nil c), hn⟩
  | cons c cs ih =>
    rw [ParseUint.loop] at h
    by_cases hc : '0' ≤ c ∧ c ≤ '9'
    · rw [if_pos hc] at h
      have hb := isDigit_toNat hc
      have h48 : ('0' : Char).toNat = 48 := by decide
      by_cases hcut : n ≥ (2 ^ 64 - 1) / 10 + 1
      · rw [if_pos hcut] at h; exact absurd h (by simp)
      · rw [if_neg hcut] at h
        have e1 : (n * 10) % 2 ^ 64 = n * 10 := Nat.mod_eq_of_lt (by omega)
        simp only [e1] at h
        by_cases hov : (n * 10 + (c.toNat - '0'.toNat)) % 2 ^ 64 < n * 10 ∨
            (n * 10 + (c.toNat - '0'.toNat)) % 2 ^ 64 > maxVal
        · rw [if_pos hov] at h; exact absurd h (by simp)
        · rw [if_neg hov] at h
          have e2 : (n * 10 + (c.toNat - '0'.toNat)) % 2 ^ 64 =
              n * 10 + (c.toNat - '0'.toNat) := by omega
          rw [e2] at hov h
          obtain ⟨hd, hv⟩ := ih _ (by omega) h
          refine ⟨?_, hv⟩
          intro x hx
          rcases List.mem_cons.mp hx with rfl | hx
          · exact hc
          · exact hd x hx
    · rw [if_neg hc] at h; exact absurd h (by simp)

theorem digitsValue_append (xs ys : GoString) (a : Nat) :
    digitsValue (xs ++ ys) a = digitsValue ys (digitsValue xs a) := by
  induction xs generalizing a with
  | nil => rfl
  | cons c cs ih => exact ih _

theorem digitChar_spec_all :
    ∀ m, m < 10 → isDigit (Nat.digitChar m) ∧ (Nat.digitChar m).toNat - '0'.toNat = m := by
  decide

theorem digitChar_spec {m : Nat} (hm : m < 10) :
    isDigit (Nat.digitChar m) ∧ (Nat.digitChar m).toNat - '0'.toNat = m :=
  digitChar_spec_all m hm

/-- With a budget above `m`, `Nat.toDigitsCore` puts in front of `tail` a
non-empty run of decimal digits of value `m`. -/
theorem toDigitsCore_run (budget : Nat) (m : Nat) (tail : GoString) (hb : m < budget) :
    ∃ run : GoString, run ≠ [] ∧ (∀ c ∈ run, isDigit c) ∧ digitsValue run 0 = m ∧
      Nat.toDigitsCore 10 budget m tail = run ++ tail := by
  induction budget generalizing m tail with
  | zero => omega
  | succ budget ih =>
    have hlast := digitChar_spec (Nat.mod_lt m (by omega : 0 < 10))
    rw [Nat.toDigitsCore]
    by_cases hq : m / 10 = 0
    · refine ⟨[Nat.digitChar (m % 10)], by simp, ?_, ?_, by simp [hq]⟩
      · intro c hc
        rw [List.mem_singleton.mp hc]
        exact hlast.1
      · simp only [digitsValue, hlast.2]
        omega
    · obtain ⟨front, hfront, hdig, hval, heq⟩ :=
        ih (m / 10) (Nat.digitChar (m % 10) :: tail) (by omega)
      refine ⟨front ++ [Nat.digitChar (m % 10)], by simp, ?_, ?_, by simp [hq, heq]⟩
      · intro c hc
        rcases List.mem_append.mp hc with hc | hc
        · exact hdig c hc
        · rw [List.mem_singleton.mp hc]
          exact hlast.1
      · rw [digitsValue_append, hval]
        simp only [digitsValue, hlast.2]
        omega

theorem toDigits_spec (n : Nat) :
    Nat.toDigits 10 n ≠ [] ∧ (∀ c ∈ Nat.toDigits 10 n, isDigit c) ∧
      digitsValue (Nat.toDigits 10 n) 0 = n := by
  obtain ⟨run, hne, hdig, hval, heq⟩ := toDigitsCore_run (n + 1) n [] (by omega)
  rw [List.append_nil] at heq
  rw [Nat.toDigits, heq]
  exact ⟨hne, hdig, hval⟩

theorem int64_of_fits (x : Int) (h1 : -(2 : Int) ^ 63 ≤ x) (h2 : x < 2 ^ 63) : int64 x = x := by
  unfold int64; omega

theorem int64_min : int64 (2 ^ 63) = -(2 : Int) ^ 63 := by
  unfold int64; omega

theorem pow_pred_bounds (w : Nat) (hw1 : 1 ≤ w) (hw : w ≤ 64) :
    1 ≤ 2 ^ (w - 1) ∧ 2 ^ (w - 1) ≤ 2 ^ 63 ∧ 2 ^ w = 2 * 2 ^ (w - 1) := by
  refine ⟨Nat.one_le_two_pow, Nat.pow_le_pow_right (by omega) (by omega), ?_⟩
  obtain ⟨k, rfl⟩ : ∃ k, w = k + 1 := ⟨w - 1, by omega⟩
  simp [Nat.pow_succ, Nat.mul_comm]

theorem ParseUint_digits (ds : GoString) (w : Nat) (hw : w ≤ 64) (hne : ds ≠ [])
    (hd : ∀ c ∈ ds, isDigit c) :
    ParseUint ds w = if digitsValue ds 0 ≤ 2 ^ w - 1 then (digitsValue ds 0, none)
      else (2 ^ w - 1, some .ErrRange) := by
  have hmax : 2 ^ w - 1 < 2 ^ 64 := by
    have : 2 ^ w ≤ 2 ^ 64 := Nat.pow_le_pow_right (by omega) hw
    have : 1 ≤ 2 ^ w := Nat.one_le_two_pow
    omega
  rw [ParseUint, if_neg hne]
  by_cases h : digitsValue ds 0 ≤ 2 ^ w - 1
  · rw [if_pos h]; exact ParseUint_loop_ok _ hmax ds 0 hd h
  · rw [if_neg h]; exact ParseUint_loop_range _ ds 0 hd (Nat.zero_le _) (by omega)

theorem numeralValue_some {s : GoString} {n : Int} (h : numeralValue s = some n) :
    s ≠ [] ∧
    (if s.head? = some '+' ∨ s.head? = some '-' then s.tail else s) ≠ [] ∧
    (∀ c ∈ (if s.head? = some '+' ∨ s.head? = some '-' then s.tail else s), isDigit c) ∧
    n = (if s.head? = some '-' then
          -(digitsValue (if s.head? = some '+' ∨ s.head? = some '-' then s.tail else s) 0 : Int)
         else (digitsValue (if s.head? = some '+' ∨ s.head? = some '-' then s.tail else s) 0 : Int)) := by
  unfold numeralValue at h
  simp only at h
  by_cases hc : (if s.head? = some '+' ∨ s.head? = some '-' then s.tail else s) ≠ [] ∧
      ∀ c ∈ (if s.head? = some '+' ∨ s.head? = some '-' then s.tail else s), isDigit c
  · rw [if_pos hc] at h
    refine ⟨?_, hc.1, hc.2, (Option.some.inj h).symm⟩
    rintro rfl
    simp at hc
  · rw [if_neg hc] at h
    exact absurd h (by simp)

theorem ParseInt_fits (s : GoString) (w : Nat) (hw1 : 1 ≤ w) (hw : w ≤ 64) (n : Int)
    (h : numeralValue s = some n) (hf : fitsIn w n) : ParseInt s w = (n, none) := by
  obtain ⟨hs, hne, hd, hn⟩ := numeralValue_some h
  obtain ⟨hC1, hC63, hCw⟩ := pow_pred_bounds w hw1 hw
  have hu := ParseUint_digits _ w hw hne hd
  unfold fitsIn at hf
  generalize hV : digitsValue (if s.head? = some '+' ∨ s.head? = some '-' then s.tail else s) 0 = V
    at hu hn
  generalize hC : 2 ^ (w - 1) = C at *
  have hCi : ((2 : Int) ^ (w - 1)) = (C : Int) := by rw [← hC]; norm_cast
  rw [hCi] at hf
  rw [ParseInt, if_neg hs]
  simp only [hu, hCw]
  by_cases hneg : s.head? = some '-'
  · rw [if_pos hneg] at hn
    have hVC : V ≤ C := by omega
    have h1 : V ≤ 2 * C - 1 := by omega
    simp only [if_pos h1, hneg, decide_True, Bool.not_true, Bool.false_eq_true, false_and,
      if_false, true_and, hC]
    rw [if_neg (by omega)]
    by_cases h63 : V = 2 ^ 63
    · subst h63
      have : int64 ((2 ^ 63 : Nat) : Int) = -(2 : Int) ^ 63 := by
        have := int64_min; norm_cast at this ⊢
      rw [this]
      have e : -(-(2 : Int) ^ 63) = 2 ^ 63 := by omega
      rw [e, int64_min, hn]
      norm_cast
    · have hlt : V < 2 ^ 63 := by omega
      rw [int64_of_fits (V : Int) (by omega) (by omega),
        int64_of_fits (-(V : Int)) (by omega) (by omega), hn]
      simp
  · rw [if_neg hneg] at hn
    have hVC : V < C := by omega
    have h1 : V ≤ 2 * C - 1 := by omega
    simp only [if_pos h1, hneg, decide_False, Bool.not_false, true_and, Bool.false_eq_true,
      false_and, if_false, hC]
    rw [if_neg (by omega), int64_of_fits (V : Int) (by omega) (by omega), hn]

theorem ParseUint_loop_range_fst (maxVal : Nat) (ds : GoString) (n : Nat)
    (h : (ParseUint.loop maxVal ds n).2 = some .ErrRange) :
    (ParseUint.loop maxVal ds n).1 = maxVal := by
  induction ds generalizing n with
  | nil => simp [ParseUint.loop] at h
  | cons c cs ih =>
    rw [ParseUint.loop] at h ⊢
    split at h
    · split at h
      · rename_i h1 h2; rw [if_pos h1, if_pos h2]
      · rename_i h1 h2
        rw [if_pos h1, if_neg h2]
        simp only at h ⊢
        split at h
        · rename_i h3; rw [if_pos h3]
        · rename_i h3; rw [if_neg h3]; exact ih _ h
    · simp at h

theorem ParseInt_not_fits (s : GoString) (w : Nat) (hw2 : 2 ≤ w) (hw : w ≤ 64) (n : Int)
    (h : numeralValue s = some n) (hf : ¬ fitsIn w n) :
    (ParseInt s w).2 = some (.numError "ParseInt".toList s .ErrRange) := by
  obtain ⟨hs, hne, hd, hn⟩ := numeralValue_some h
  obtain ⟨hC1, hC63, hCw⟩ := pow_pred_bounds w (by omega) hw
  have hC2 : 2 ≤ 2 ^ (w - 1) := by
    have : 2 ^ 1 ≤ 2 ^ (w - 1) := Nat.pow_le_pow_right (by omega) (by omega)
    simpa using this
  have hu := ParseUint_digits _ w hw hne hd
  unfold fitsIn at hf
  generalize hV : digitsValue (if s.head? = some '+' ∨ s.head? = some '-' then s.tail else s) 0 = V
    at hu hn
  generalize hC : 2 ^ (w - 1) = C at *
  have hCi : ((2 : Int) ^ (w - 1)) = (C : Int) := by rw [← hC]; norm_cast
  rw [hCi] at hf
  rw [ParseInt, if_neg hs]
  simp only [hu, hCw]
  by_cases hneg : s.head? = some '-'
  · rw [if_pos hneg] at hn
    have hVC : C < V := by omega
    by_cases h1 : V ≤ 2 * C - 1
    · simp only [if_pos h1, hneg, decide_True, Bool.not_true, Bool.false_eq_true, false_and,
        if_false, true_and, hC]
      rw [if_pos (by omega)]
    · simp only [if_neg h1, hneg, decide_True, Bool.not_true, Bool.false_eq_true, false_and,
        if_false, true_and, hC]
      rw [if_pos (by omega)]
  · rw [if_neg hneg] at hn
    have hVC : C ≤ V := by omega
    by_cases h1 : V ≤ 2 * C - 1
    · simp only [if_pos h1, hneg, decide_False, Bool.not_false, true_and, hC]
      rw [if_pos (by omega)]
    · simp only [if_neg h1, hneg, decide_False, Bool.not_false, true_and, hC]
      rw [if_pos (by omega)]

theorem ParseInt_none (s : GoString) (w : Nat) (hw2 : 2 ≤ w) (hw : w ≤ 64)
    (h : (ParseInt s w).2 = none) : ∃ n, numeralValue s = some n ∧ fitsIn w n := by
  cases hnv : numeralValue s with
  | some n =>
    by_cases hf : fitsIn w n
    · exact ⟨n, rfl, hf⟩
    · rw [ParseInt_not_fits s w hw2 hw n hnv hf] at h
      exact absurd h (by simp)
  | none =>
    exfalso
    obtain ⟨hC1, hC63, hCw⟩ := pow_pred_bounds w (by omega) hw
    have hC2 : 2 ≤ 2 ^ (w - 1) := by
      have : 2 ^ 1 ≤ 2 ^ (w - 1) := Nat.pow_le_pow_right (by omega) (by omega)
      simpa using this
    unfold numeralValue at hnv
    simp only at hnv
    rw [ParseInt] at h
    by_cases hs : s = []
    · rw [if_pos hs] at h; exact absurd h (by simp)
    · rw [if_neg hs] at h
      simp only at h
      generalize ht : (if s.head? = some '+' ∨ s.head? = some '-' then s.tail else s) = t at h hnv
      have hbad : ¬ (t ≠ [] ∧ ∀ c ∈ t, isDigit c) := by
        intro hc; rw [if_pos hc] at hnv; exact absurd hnv (by simp)
      rcases hpu : ParseUint t w with ⟨un, e⟩
      rw [hpu] at h
      cases e with
      | none =>
        apply hbad
        rw [ParseUint] at hpu
        by_cases hte : t = []
        · rw [if_pos hte] at hpu; exact absurd (congrArg Prod.snd hpu) (by simp)
        · rw [if_neg hte] at hpu
          exact ⟨hte, (ParseUint_loop_none _ t 0 (Nat.zero_le _) (by rw [hpu])).1⟩
      | some k =>
        cases k with
        | ErrSyntax => exact absurd h (by simp)
        | ErrRange =>
          have hun : un = 2 ^ w - 1 := by
            rw [ParseUint] at hpu
            by_cases hte : t = []
            · rw [if_pos hte] at hpu; exact absurd (congrArg Prod.snd hpu) (by simp)
            · rw [if_neg hte] at hpu
              have := ParseUint_loop_range_fst (2 ^ w - 1) t 0 (by rw [hpu])
              rw [hpu] at this; exact this
          simp only at h
          by_cases hneg : s.head? = some '-'
          · simp only [hneg, decide_True, Bool.not_true, Bool.false_eq_true, false_and,
              if_false, true_and] at h
            rw [if_pos (by omega)] at h
            exact absurd h (by simp)
          · simp only [hneg, decide_False, Bool.not_false, true_and] at h
            rw [if_pos (by omega)] at h
            exact absurd h (by simp)

theorem numeralValue_decimal (n : Int) : numeralValue (decimal n) = some n := by
  cases n with
  | ofNat m =>
    obtain ⟨hne, hd, hv⟩ := toDigits_spec m
    obtain ⟨c, cs, hcs⟩ := List.exists_cons_of_ne_nil hne
    have hc : isDigit c := hd c (by rw [hcs]; exact List.mem_cons_self _ _)
    have hb := isDigit_toNat hc
    have hp : c ≠ '+' := by rintro rfl; revert hb; decide
    have hm : c ≠ '-' := by rintro rfl; revert hb; decide
    have e : decimal (Int.ofNat m) = c :: cs := hcs
    have hd' : ∀ x ∈ c :: cs, isDigit x := by rw [← hcs]; exact hd
    have hv' : digitsValue (c :: cs) 0 = m := by rw [← hcs]; exact hv
    rw [e, numeralValue]
    simp only [List.head?_cons, Option.some.injEq, hp, hm, or_self, if_false]
    rw [if_pos ⟨by simp, hd'⟩, hv']
    rfl
  | negSucc m =>
    obtain ⟨hne, hd, hv⟩ := toDigits_spec (m + 1)
    have e : decimal (Int.negSucc m) = '-' :: Nat.toDigits 10 (m + 1) := rfl
    rw [e, numeralValue]
    simp only [List.head?_cons, or_true, if_true, List.tail_cons]
    rw [if_pos ⟨hne, hd⟩, hv]
    rfl

theorem decimal_ne_nil (n : Int) : decimal n ≠ [] :=
  (numeralValue_some (numeralValue_decimal n)).1

theorem fitsIn_mono_16_32 {n : Int} (h : fitsIn 16 n) : fitsIn 32 n := by
  unfold fitsIn at *; norm_num at *; omega

theorem fitsIn_mono_32_64 {n : Int} (h : fitsIn 32 n) : fitsIn 64 n := by
  unfold fitsIn at *; norm_num at *; omega

theorem convertValue_smallint (lib : Lib) (cuv : GoString → Res Value) (v : GoString)
    (hv : v ≠ []) :
    convertValue lib cuv "smallint".toList v = Res.ofParseInt (ParseInt v 16) := by
  rw [convertValue, if_neg hv, if_pos rfl]

theorem convertValue_integer (lib : Lib) (cuv : GoString → Res Value) (v : GoString)
    (hv : v ≠ []) :
    convertValue lib cuv "integer".toList v = Res.ofParseInt (ParseInt v 32) := by
  rw [convertValue, if_neg hv, if_neg (by decide), if_pos rfl]

theorem convertValue_bigint (lib : Lib) (cuv : GoString → Res Value) (v : GoString)
    (hv : v ≠ []) :
    convertValue lib cuv "bigint".toList v = Res.ofParseInt (ParseInt v 64) := by
  rw [convertValue, if_neg hv, if_neg (by decide), if_neg (by decide), if_pos rfl]

theorem convertValue_string (lib : Lib) (cuv : GoString → Res Value) (v : GoString)
    (hv : v ≠ []) :
    convertValue lib cuv "string".toList v = .ok (.str v) := by
  rw [convertValue, if_neg hv, if_neg (by decide), if_neg (by decide), if_neg (by decide),
    if_neg (by decide), if_neg (by decide), if_neg (by decide), if_pos (by decide)]

theorem ofParseInt_numeral (s : GoString) (w : Nat) (hw2 : 2 ≤ w) (hw : w ≤ 64) (n : Int)
    (h : numeralValue s = some n) :
    Res.ofParseInt (ParseInt s w) =
      if fitsIn w n then .ok (.int n) else .err (.numError "ParseInt".toList s .ErrRange) := by
  by_cases hf : fitsIn w n
  · rw [if_pos hf, ParseInt_fits s w (by omega) hw n h hf]; rfl
  · rw [if_neg hf]
    have := ParseInt_not_fits s w hw2 hw n h hf
    unfold Res.ofParseInt
    rw [this]

/-- Three values of `decimal`. -/
theorem decimal_examples :
    decimal 40000 = "40000".toList ∧ decimal (-32768) = "-32768".toList ∧
      decimal 0 = "0".toList := by decide

/-- C6: for the tags `smallint`, `integer`, `bigint` (widths 16, 32, 64) and
every integer `n` in canonical decimal, `convertValue` returns `n` with a nil
error when `n` fits the width, and otherwise returns the range error of
`strconv.ParseInt` for that text. -/
theorem convertValue_integer_tags (lib : Lib) (cuv : GoString → Res Value) (n : Int) :
    convertValue lib cuv "smallint".toList (decimal n) =
      (if -(2 : Int) ^ 15 ≤ n ∧ n ≤ 2 ^ 15 - 1 then .ok (.int n)
       else .err (.numError "ParseInt".toList (decimal n) .ErrRange)) ∧
    convertValue lib cuv "integer".toList (decimal n) =
      (if -(2 : Int) ^ 31 ≤ n ∧ n ≤ 2 ^ 31 - 1 then .ok (.int n)
       else .err (.numError "ParseInt".toList (decimal n) .ErrRange)) ∧
    convertValue lib cuv "bigint".toList (decimal n) =
      (if -(2 : Int) ^ 63 ≤ n ∧ n ≤ 2 ^ 63 - 1 then .ok (.int n)
       else .err (.numError "ParseInt".toList (decimal n) .ErrRange)) := by
  have hne := decimal_ne_nil n
  have hnum := numeralValue_decimal n
  refine ⟨?_, ?_, ?_⟩
  · rw [convertValue_smallint lib cuv _ hne, ofParseInt_numeral _ 16 (by omega) (by omega) n hnum]
    rfl
  · rw [convertValue_integer lib cuv _ hne, ofParseInt_numeral _ 32 (by omega) (by omega) n hnum]
    rfl
  · rw [convertValue_bigint lib cuv _ hne, ofParseInt_numeral _ 64 (by omega) (by omega) n hnum]
    rfl

/-! ## The ladder of convertUnknownValue -/

theorem ParseInt_snd_ne_none {s : GoString} {w : Nat} (hw2 : 2 ≤ w) (hw : w ≤ 64)
    (h : ∀ n, numeralValue s = some n → ¬ fitsIn w n) : ¬ (ParseInt s w).2 = none := by
  intro hn
  obtain ⟨n, h1, h2⟩ := ParseInt_none s w hw2 hw hn
  exact h n h1 h2

/-- The three integer probes of `convertUnknownValue` all fail: the rest of
the ladder decides. -/
theorem convertUnknownValue_not_int (lib : Lib) (fuel : Nat) (s : GoString) (hs : s ≠ [])
    (h : ∀ n, numeralValue s = some n → ¬ fitsIn 64 n) :
    convertUnknownValue lib (fuel + 1) s =
      if s.head? = some '[' ∧ s.getLast? = some ']' then
        parseArray (convertUnknownValue lib fuel) s
      else if s.head? = some '\x7b' ∧ s.getLast? = some '\x7d' then
        parseMap (convertUnknownValue lib fuel) s
      else .ok (.str s) := by
  have h64 := ParseInt_snd_ne_none (by omega) (by omega) h
  have h32 : ¬ (ParseInt s 32).2 = none :=
    ParseInt_snd_ne_none (by omega) (by omega) (fun n hn hf => h n hn (fitsIn_mono_32_64 hf))
  have h16 : ¬ (ParseInt s 16).2 = none :=
    ParseInt_snd_ne_none (by omega) (by omega)
      (fun n hn hf => h n hn (fitsIn_mono_32_64 (fitsIn_mono_16_32 hf)))
  obtain ⟨a, ha⟩ : ∃ a, s.head? = some a := by
    cases s with
    | nil => exact absurd rfl hs
    | cons a t => exact ⟨a, rfl⟩
  obtain ⟨b, hb⟩ : ∃ b, s.getLast? = some b := by
    cases hl : s.getLast? with
    | none => exact absurd (List.getLast?_eq_none_iff.mp hl) hs
    | some b => exact ⟨b, rfl⟩
  rw [convertUnknownValue, if_neg h16, if_neg h32, if_neg h64, ha, hb]
  simp only [Option.some.injEq, convertValue_string lib _ s hs]

/-- An integer probe of `convertUnknownValue` succeeds: the value is the
integer, coerced under the narrowest tag. -/
theorem convertUnknownValue_int (lib : Lib) (fuel : Nat) (s : GoString) (n : Int)
    (hn : numeralValue s = some n) (hf : fitsIn 64 n) :
    convertUnknownValue lib (fuel + 1) s =
        convertValue lib (convertUnknownValue lib fuel) (narrowestTag n) s ∧
      convertUnknownValue lib (fuel + 1) s = .ok (.int n) := by
  have hs : s ≠ [] := (numeralValue_some hn).1
  have hnot : ∀ w, 2 ≤ w → w ≤ 64 → ¬ fitsIn w n → ¬ (ParseInt s w).2 = none := by
    intro w h2 h64 hnf hp
    rw [ParseInt_not_fits s w h2 h64 n hn hnf] at hp
    exact absurd hp (by simp)
  have hyes : ∀ w, 2 ≤ w → w ≤ 64 → fitsIn w n → (ParseInt s w).2 = none := by
    intro w h2 h64 hfw
    rw [ParseInt_fits s w (by omega) h64 n hn hfw]
  by_cases h16 : fitsIn 16 n
  · have e : convertUnknownValue lib (fuel + 1) s =
        convertValue lib (convertUnknownValue lib fuel) "smallint".toList s := by
      rw [convertUnknownValue, if_pos (hyes 16 (by omega) (by omega) h16)]
    refine ⟨by rw [e, narrowestTag, if_pos h16], ?_⟩
    rw [e, convertValue_smallint lib _ s hs, ofParseInt_numeral s 16 (by omega) (by omega) n hn,
      if_pos h16]
  · by_cases h32 : fitsIn 32 n
    · have e : convertUnknownValue lib (fuel + 1) s =
          convertValue lib (convertUnknownValue lib fuel) "integer".toList s := by
        rw [convertUnknownValue, if_neg (hnot 16 (by omega) (by omega) h16),
          if_pos (hyes 32 (by omega) (by omega) h32)]
      refine ⟨by rw [e, narrowestTag, if_neg h16, if_pos h32], ?_⟩
      rw [e, convertValue_integer lib _ s hs,
        ofParseInt_numeral s 32 (by omega) (by omega) n hn, if_pos h32]
    · have e : convertUnknownValue lib (fuel + 1) s =
          convertValue lib (convertUnknownValue lib fuel) "bigint".toList s := by
        rw [convertUnknownValue, if_neg (hnot 16 (by omega) (by omega) h16),
          if_neg (hnot 32 (by omega) (by omega) h32),
          if_pos (hyes 64 (by omega) (by omega) hf)]
      refine ⟨by rw [e, narrowestTag, if_neg h16, if_neg h32], ?_⟩
      rw [e, convertValue_bigint lib _ s hs,
        ofParseInt_numeral s 64 (by omega) (by omega) n hn, if_pos hf]

/-- C7 (amended): `convertUnknownValue` follows the fixed ladder, first match
wins, for every non-empty text `s`.  If `s` is a decimal numeral as
`strconv.ParseInt` reads it (an optional sign `+` or `-`, then one or more
decimal digits, leading zeros allowed) of a value `n` that fits in 64 bits, the
result is `n`, coerced under the narrowest of `smallint`, `integer`, `bigint`
whose range contains `n`.  Otherwise, if `s` starts with `[` and ends with `]`
the result is `parseArray(s)`; otherwise, if `s` starts with an opening brace
and ends with a closing brace the result is `parseMap(s)`; otherwise the result
is the string `s` unchanged. -/
theorem convertUnknownValue_ladder (lib : Lib) (fuel : Nat) (s : GoString) (hs : s ≠ []) :
    (∀ n, numeralValue s = some n → fitsIn 64 n →
      convertUnknownValue lib (fuel + 1) s =
          convertValue lib (convertUnknownValue lib fuel) (narrowestTag n) s ∧
        convertUnknownValue lib (fuel + 1) s = .ok (.int n)) ∧
    ((∀ n, numeralValue s = some n → ¬ fitsIn 64 n) →
      convertUnknownValue lib (fuel + 1) s =
        if s.head? = some '[' ∧ s.getLast? = some ']' then
          parseArray (convertUnknownValue lib fuel) s
        else if s.head? = some '\x7b' ∧ s.getLast? = some '\x7d' then
          parseMap (convertUnknownValue lib fuel) s
        else .ok (.str s)) :=
  ⟨fun n hn hf => convertUnknownValue_int lib fuel s n hn hf,
   fun h => convertUnknownValue_not_int lib fuel s hs h⟩

/-- C7, at the texts "true", "1.5" and "2020-01-02": each is returned as a
string. -/
theorem convertUnknownValue_ladder_witness :
    convertUnknownValue Lib.rejecting 1 "true".toList = .ok (.str "true".toList) ∧
    convertUnknownValue Lib.rejecting 1 "1.5".toList = .ok (.str "1.5".toList) ∧
    convertUnknownValue Lib.rejecting 1 "2020-01-02".toList = .ok (.str "2020-01-02".toList) :=
  ⟨((convertUnknownValue_ladder Lib.rejecting 0 "true".toList (by decide)).2 (by decide)).trans
      (by decide),
   ((convertUnknownValue_ladder Lib.rejecting 0 "1.5".toList (by decide)).2 (by decide)).trans
      (by decide),
   ((convertUnknownValue_ladder Lib.rejecting 0 "2020-01-02".toList (by decide)).2
      (by decide)).trans (by decide)⟩

/-- C7 as stated fails at the text "+5" (and likewise at "007"): neither is
the canonical decimal text of an integer and neither is bracketed, yet the
result is an integer, not the string. -/
theorem convertUnknownValue_plus5 :
    (∀ n : Int, decimal n ≠ "+5".toList) ∧ (∀ n : Int, decimal n ≠ "007".toList) ∧
    convertUnknownValue Lib.rejecting 1 "+5".toList = .ok (.int 5) ∧
    convertUnknownValue Lib.rejecting 1 "007".toList = .ok (.int 7) := by
  refine ⟨?_, ?_, by decide, by decide⟩
  · intro n h
    have hn := numeralValue_decimal n
    rw [h] at hn
    have h5 : numeralValue "+5".toList = some 5 := by decide
    rw [h5] at hn
    obtain rfl : (5 : Int) = n := Option.some.inj hn
    revert h
    decide
  · intro n h
    have hn := numeralValue_decimal n
    rw [h] at hn
    have h7 : numeralValue "007".toList = some 7 := by decide
    rw [h7] at hn
    obtain rfl : (7 : Int) = n := Option.some.inj hn
    revert h
    decide

/-! ## The scan of parse over elements without commas and brackets -/

theorem parse_eq_parseFinish (cuv : GoString → Res Value) (val : GoString) (isMap : Bool)
    (h : 2 ≤ val.length) :
    parse cuv val isMap =
      parseFinish cuv isMap
        (parseLoop cuv isMap [] ((val.drop 1).take (val.length - 2)) ParseState.init) := by
  rw [parse, if_neg (by omega)]
  rfl

theorem interior_of_brackets (a b : Char) (interior : GoString) :
    ((a :: interior ++ [b]).drop 1).take ((a :: interior ++ [b]).length - 2) = interior := by
  simp

theorem parseLoop_plain_step (cuv : GoString → Res Value) (isMap : Bool) (before : GoString)
    (c : Char) (rest : GoString) (st : ParseState) (hc : plainByte c) :
    parseLoop cuv isMap before (c :: rest) st =
      parseLoop cuv isMap (c :: before) rest
        { st with currentValue := st.currentValue ++ [c] } := by
  obtain ⟨h1, h2, h3, h4, h5⟩ := hc
  cases rest with
  | nil => simp [parseLoop, h1, h2, h3, h4, h5]
  | cons d r => simp [parseLoop, h1, h2, h3, h4, h5]

theorem parseLoop_plain (cuv : GoString → Res Value) (isMap : Bool) (e : GoString)
    (he : ∀ c ∈ e, plainByte c) (before rest : GoString) (st : ParseState) :
    parseLoop cuv isMap before (e ++ rest) st =
      parseLoop cuv isMap (e.reverse ++ before) rest
        { st with currentValue := st.currentValue ++ e } := by
  induction e generalizing before st with
  | nil => simp
  | cons c cs ih =>
    rw [List.cons_append, parseLoop_plain_step cuv isMap before c _ st
      (he c (List.mem_cons_self _ _)), ih (fun x hx => he x (List.mem_cons_of_mem _ hx))]
    simp

theorem parseLoop_delimiter (cuv : GoString → Res Value) (isMap : Bool)
    (before rest : GoString) (st : ParseState) (ha : st.ignoreArray = 0) (hm : st.ignoreMap = 0) :
    parseLoop cuv isMap before (',' :: ' ' :: rest) st =
      match finalise cuv isMap st with
      | .ok st' => parseLoop cuv isMap (' ' :: ',' :: before) rest { st' with currentValue := [] }
      | .err e => .err e
      | .panic p => .panic p
      | .outOfFuel => .outOfFuel := by
  simp [parseLoop, ha, hm]

theorem finalise_ok {cuv : GoString → Res Value} {isMap : Bool} {st st' : ParseState}
    (h : finalise cuv isMap st = .ok st') :
    st'.ignoreArray = st.ignoreArray ∧ st'.ignoreMap = st.ignoreMap ∧
      st'.currentValue = st.currentValue := by
  unfold finalise at h
  split at h
  · split at h
    · cases h; exact ⟨rfl, rfl, rfl⟩
    all_goals cases h
  · split at h
    · cases h; exact ⟨rfl, rfl, rfl⟩
    all_goals cases h

theorem intercalate_singleton (sep e : GoString) : List.intercalate sep [e] = e := by
  simp [List.intercalate]

theorem intercalate_cons_cons (sep e e2 : GoString) (es : List GoString) :
    List.intercalate sep (e :: e2 :: es) = e ++ (sep ++ List.intercalate sep (e2 :: es)) := by
  simp [List.intercalate]

/-- The scan of an interior made of elements without commas and brackets,
joined by ", ", followed by the end of `parse`: the element calls for the
elements in order, then the container. -/
theorem parseFinish_elems (cuv : GoString → Res Value) (isMap : Bool) (es : List GoString)
    (hne : es ≠ []) (hplain : ∀ e ∈ es, ∀ c ∈ e, plainByte c) (hnonempty : ∀ e ∈ es, e ≠ [])
    (before : GoString) (st : ParseState) (ha : st.ignoreArray = 0) (hm : st.ignoreMap = 0)
    (hc : st.currentValue = []) :
    parseFinish cuv isMap (parseLoop cuv isMap before (List.intercalate ", ".toList es) st) =
      container isMap (emitAll cuv isMap es st) := by
  induction es generalizing before st with
  | nil => exact absurd rfl hne
  | cons e es ih =>
    have hpe : ∀ c ∈ e, plainByte c := hplain e (List.mem_cons_self _ _)
    have hee : e ≠ [] := hnonempty e (List.mem_cons_self _ _)
    have hst : ({ st with currentValue := st.currentValue ++ e } : ParseState) =
        { st with currentValue := e } := by rw [hc, List.nil_append]
    cases es with
    | nil =>
      have h1 := parseLoop_plain cuv isMap e hpe before [] st
      rw [List.append_nil] at h1
      rw [intercalate_singleton, h1, hst, parseLoop, parseFinish, emitAll]
      have hlen : ({ st with currentValue := e } : ParseState).currentValue.length > 0 :=
        List.length_pos.mpr hee
      rw [if_pos hlen]
      cases hf : finalise cuv isMap { st with currentValue := e } with
      | ok st' => simp [emitAll, container]
      | err x => simp [container]
      | panic p => simp [container]
      | outOfFuel => simp [container]
    | cons e2 es =>
      have hsep : ", ".toList = [',', ' '] := rfl
      rw [intercalate_cons_cons, hsep, parseLoop_plain cuv isMap e hpe, hst]
      rw [List.cons_append, List.cons_append, List.nil_append,
        parseLoop_delimiter cuv isMap _ _ { st with currentValue := e } ha hm, emitAll]
      cases hf : finalise cuv isMap { st with currentValue := e } with
      | ok st' =>
        obtain ⟨h1, h2, _⟩ := finalise_ok hf
        simp only
        exact ih (List.cons_ne_nil _ _)
          (fun x hx => hplain x (List.mem_cons_of_mem _ hx))
          (fun x hx => hnonempty x (List.mem_cons_of_mem _ hx)) _ _
          (by simpa [ha] using h1) (by simpa [hm] using h2) rfl
      | err x => simp [container, parseFinish]
      | panic p => simp [container, parseFinish]
      | outOfFuel => simp [container, parseFinish]

/-! ## Map mode on entries without special bytes -/

theorem Split_of_not_mem (s : GoString) (sep : Char) (h : sep ∉ s) : Split s sep = [s] := by
  induction s with
  | nil => rfl
  | cons c cs ih =>
    have hc : c ≠ sep := fun e => h (e ▸ List.mem_cons_self _ _)
    have hcs : sep ∉ cs := fun hm => h (List.mem_cons_of_mem _ hm)
    rw [Split, if_neg hc, ih hcs]

theorem Split_append_sep (k r : GoString) (sep : Char) (h : sep ∉ k) :
    Split (k ++ sep :: r) sep = k :: Split r sep := by
  induction k with
  | nil => rw [List.nil_append, Split, if_pos rfl]
  | cons c cs ih =>
    have hc : c ≠ sep := fun e => h (e ▸ List.mem_cons_self _ _)
    have hcs : sep ∉ cs := fun hm => h (List.mem_cons_of_mem _ hm)
    rw [List.cons_append, Split, if_neg hc, ih hcs]

theorem GoMap_insert_fresh (m : GoMap) (key : GoString) (v : Value)
    (h : key ∉ m.map Prod.fst) : GoMap.insert m key v = m ++ [(key, v)] := by
  induction m with
  | nil => rfl
  | cons p m ih =>
    obtain ⟨k, x⟩ := p
    have hk : k ≠ key := fun e => h (by rw [e]; exact List.mem_cons_self _ _)
    have hm : key ∉ m.map Prod.fst := fun hm => h (List.mem_cons_of_mem _ hm)
    rw [GoMap.insert, if_neg hk, ih hm]
    rfl

theorem addToMap_entry (cuv : GoString → Res Value) (m : GoMap) (k v : GoString) (x : Value)
    (hk : '=' ∉ k) (hv : '=' ∉ v) (hx : cuv v = .ok x) :
    addToMap cuv m (k ++ '=' :: v) = .ok (m.insert k x) := by
  rw [addToMap, Split_append_sep k v '=' hk, Split_of_not_mem v '=' hv]
  simp only [hx]

theorem emitAll_entries (cuv : GoString → Res Value) (entries : List (GoString × GoString))
    (vals : List Value) (hvals : List.Forall₂ (fun e x => cuv e.2 = .ok x) entries vals) :
    ∀ (st : ParseState), (∀ e ∈ entries, '=' ∉ e.1 ∧ '=' ∉ e.2) →
      (entries.map Prod.fst).Nodup →
      (∀ k ∈ entries.map Prod.fst, k ∉ st.mapContainer.map Prod.fst) →
      container true (emitAll cuv true (entries.map entryText) st) =
        .ok (.map (st.mapContainer ++ (entries.map Prod.fst).zip vals)) := by
  induction hvals with
  | nil => intro st _ _ _; simp [emitAll, container]
  | @cons e x es xs hx _ ih =>
    intro st heq hnd hfresh
    obtain ⟨hk, hv⟩ := heq e (List.mem_cons_self _ _)
    have hkf : e.1 ∉ st.mapContainer.map Prod.fst :=
      hfresh e.1 (by simp)
    rw [List.map_cons, List.nodup_cons] at hnd
    have hfin : finalise cuv true { st with currentValue := entryText e } =
        .ok { st with currentValue := entryText e,
                      mapContainer := st.mapContainer ++ [(e.1, x)] } := by
      rw [finalise, if_pos rfl]
      simp only [entryText, addToMap_entry cuv st.mapContainer e.1 e.2 x hk hv hx,
        GoMap_insert_fresh st.mapContainer e.1 x hkf]
    rw [List.map_cons, emitAll, hfin]
    simp only
    rw [ih _ (fun e' he' => heq e' (List.mem_cons_of_mem _ he')) hnd.2]
    · simp
    · intro k hkm hin
      simp only [List.map_append, List.map_cons, List.map_nil, List.mem_append,
        List.mem_singleton] at hin
      rcases hin with hin | hin
      · exact hfresh k (List.mem_cons_of_mem _ hkm) hin
      · exact hnd.1 (hin ▸ hkm)

theorem convertUnknownValue_clean (lib : Lib) (fuel : Nat) (v : GoString) (hne : v ≠ [])
    (hv : ∀ c ∈ v, cleanByte c) : ∃ x, convertUnknownValue lib (fuel + 1) v = .ok x := by
  by_cases h : ∃ n, numeralValue v = some n ∧ fitsIn 64 n
  · obtain ⟨n, hn, hf⟩ := h
    exact ⟨.int n, (convertUnknownValue_int lib fuel v n hn hf).2⟩
  · have h' : ∀ n, numeralValue v = some n → ¬ fitsIn 64 n := fun n hn hf => h ⟨n, hn, hf⟩
    refine ⟨.str v, ?_⟩
    rw [convertUnknownValue_not_int lib fuel v hne h']
    obtain ⟨c, cs, rfl⟩ := List.exists_cons_of_ne_nil hne
    obtain ⟨_, _, h3, _, h5, _⟩ := hv c (List.mem_cons_self _ _)
    simp [h3, h5]

theorem exists_vals (cuv : GoString → Res Value) (entries : List (GoString × GoString))
    (h : ∀ e ∈ entries, ∃ x, cuv e.2 = .ok x) :
    ∃ vals : List Value, List.Forall₂ (fun e x => cuv e.2 = .ok x) entries vals := by
  induction entries with
  | nil => exact ⟨[], List.Forall₂.nil⟩
  | cons e es ih =>
    obtain ⟨x, hx⟩ := h e (List.mem_cons_self _ _)
    obtain ⟨xs, hxs⟩ := ih (fun e' he' => h e' (List.mem_cons_of_mem _ he'))
    exact ⟨x :: xs, List.Forall₂.cons hx hxs⟩

theorem convertValue_map (lib : Lib) (cuv : GoString → Res Value) (v : GoString)
    (hv : v ≠ []) : convertValue lib cuv "map".toList v = parseMap cuv v := by
  rw [convertValue, if_neg hv, if_neg (by decide), if_neg (by decide), if_neg (by decide),
    if_neg (by decide), if_neg (by decide), if_neg (by decide), if_neg (by decide),
    if_neg (by decide), if_neg (by decide), if_neg (by decide), if_neg (by decide),
    if_pos rfl]

theorem convertValue_array (lib : Lib) (cuv : GoString → Res Value) (v : GoString)
    (hv : v ≠ []) : convertValue lib cuv "array".toList v = parseArray cuv v := by
  rw [convertValue, if_neg hv, if_neg (by decide), if_neg (by decide), if_neg (by decide),
    if_neg (by decide), if_neg (by decide), if_neg (by decide), if_neg (by decide),
    if_neg (by decide), if_neg (by decide), if_neg (by decide), if_neg (by decide),
    if_neg (by decide), if_pos rfl]

theorem convertValue_row (lib : Lib) (cuv : GoString → Res Value) (v : GoString)
    (hv : v ≠ []) : convertValue lib cuv "row".toList v = parseMap cuv v := by
  rw [convertValue, if_neg hv, if_neg (by decide), if_neg (by decide), if_neg (by decide),
    if_neg (by decide), if_neg (by decide), if_neg (by decide), if_neg (by decide),
    if_neg (by decide), if_neg (by decide), if_neg (by decide), if_neg (by decide),
    if_neg (by decide), if_neg (by decide), if_pos rfl]

/-- Map mode on a text of entries without special bytes, for any callee
`cuv` that returns a value on each entry value. -/
theorem parseMap_entries (cuv : GoString → Res Value) (entries : List (GoString × GoString))
    (hne : entries ≠ [])
    (hclean : ∀ e ∈ entries, e.1 ≠ [] ∧ e.2 ≠ [] ∧ (∀ c ∈ e.1, cleanByte c) ∧
      (∀ c ∈ e.2, cleanByte c))
    (hnd : (entries.map Prod.fst).Nodup) (vals : List Value)
    (hvals : List.Forall₂ (fun e x => cuv e.2 = .ok x) entries vals) :
    parseMap cuv (mapText entries) = .ok (.map ((entries.map Prod.fst).zip vals)) := by
  have hlen : 2 ≤ (mapText entries).length := by simp [mapText]
  rw [parseMap, parse_eq_parseFinish cuv _ true hlen, mapText, interior_of_brackets]
  rw [parseFinish_elems cuv true (entries.map entryText) (by simpa using hne) ?_ ?_ [] _ rfl rfl rfl]
  · rw [emitAll_entries cuv entries vals hvals ParseState.init ?_ hnd (by simp [ParseState.init])]
    · simp [ParseState.init]
    · intro e he
      obtain ⟨_, _, h1, h2⟩ := hclean e he
      exact ⟨fun hm => (h1 _ hm).1 rfl, fun hm => (h2 _ hm).1 rfl⟩
  · intro t ht c hc
    obtain ⟨e, he, rfl⟩ := List.mem_map.mp ht
    obtain ⟨_, _, h1, h2⟩ := hclean e he
    simp only [entryText, List.mem_append, List.mem_cons] at hc
    rcases hc with hc | rfl | hc
    · obtain ⟨_, a, b, c', d, f⟩ := h1 c hc; exact ⟨a, b, c', d, f⟩
    · decide
    · obtain ⟨_, a, b, c', d, f⟩ := h2 c hc; exact ⟨a, b, c', d, f⟩
  · intro t ht
    obtain ⟨e, _, rfl⟩ := List.mem_map.mp ht
    simp [entryText]

/-! ## Array mode -/

theorem plainByte_of_isDigit {c : Char} (h : isDigit c) : plainByte c := by
  have hb := isDigit_toNat h
  refine ⟨?_, ?_, ?_, ?_, ?_⟩ <;> (rintro rfl; revert hb; decide)

theorem plainByte_decimal (n : Int) : ∀ c ∈ decimal n, plainByte c := by
  intro c hc
  cases n with
  | ofNat m => exact plainByte_of_isDigit ((toDigits_spec m).2.1 c hc)
  | negSucc m =>
    rcases List.mem_cons.mp hc with rfl | hc
    · decide
    · exact plainByte_of_isDigit ((toDigits_spec (m + 1)).2.1 c hc)

theorem emitAll_array (cuv : GoString → Res Value) (es : List GoString)
    (h : ∀ e ∈ es, ∃ x, cuv e = .ok x) (st : ParseState) :
    container false (emitAll cuv false es st) = .ok (.arr st.arrayContainer) := by
  induction es generalizing st with
  | nil => simp [emitAll, container]
  | cons e es ih =>
    obtain ⟨x, hx⟩ := h e (List.mem_cons_self _ _)
    have hfin : finalise cuv false { st with currentValue := e } =
        .ok { st with currentValue := e } := by
      simp [finalise, addToArray, hx]
    rw [emitAll, hfin]
    simp only
    rw [ih (fun e' he' => h e' (List.mem_cons_of_mem _ he'))]

/-- Array mode on a text of elements without commas and brackets, each of
which the callee turns into a value: the sequence returned is empty. -/
theorem parseArray_elems (cuv : GoString → Res Value) (es : List GoString) (hne : es ≠ [])
    (hplain : ∀ e ∈ es, ∀ c ∈ e, plainByte c) (hnonempty : ∀ e ∈ es, e ≠ [])
    (h : ∀ e ∈ es, ∃ x, cuv e = .ok x) :
    parseArray cuv ('[' :: List.intercalate ", ".toList es ++ [']']) = .ok (.arr []) := by
  have hlen : 2 ≤ ('[' :: List.intercalate ", ".toList es ++ [']']).length := by simp
  rw [parseArray, parse_eq_parseFinish cuv _ false hlen, interior_of_brackets,
    parseFinish_elems cuv false es hne hplain hnonempty [] _ rfl rfl rfl,
    emitAll_array cuv es h]
  rfl

/-- For every non-empty list of integers that fit in 16 bits, `convertValue`
with tag `array` on their array text returns the empty sequence. -/
theorem convertValue_array_decimals (lib : Lib) (fuel : Nat) (ns : List Int) (hne : ns ≠ [])
    (hfit : ∀ n ∈ ns, fitsIn 16 n) :
    convertValue lib (convertUnknownValue lib (fuel + 1)) "array".toList (arrayText ns) =
      .ok (.arr []) := by
  rw [convertValue_array lib _ _ (by simp [arrayText]), arrayText]
  apply parseArray_elems
  · simpa using hne
  · intro e he
    obtain ⟨n, _, rfl⟩ := List.mem_map.mp he
    exact plainByte_decimal n
  · intro e he
    obtain ⟨n, _, rfl⟩ := List.mem_map.mp he
    exact decimal_ne_nil n
  · intro e he
    obtain ⟨n, hn, rfl⟩ := List.mem_map.mp he
    exact ⟨.int n, (convertUnknownValue_int lib fuel _ n (numeralValue_decimal n)
      (fitsIn_mono_32_64 (fitsIn_mono_16_32 (hfit n hn)))).2⟩

/-- C1: `convertValue` with tag `array` on the text "[1, 2, 3]" returns the
empty sequence, not the sequence 1, 2, 3 (whatever the library and for every
positive recursion budget): `addToArray` appends to its own copy of the slice
header. -/
theorem convertValue_array_123 (lib : Lib) (fuel : Nat) :
    convertValue lib (convertUnknownValue lib (fuel + 1)) "array".toList "[1, 2, 3]".toList =
      .ok (.arr []) :=
  convertValue_array_decimals lib fuel [1, 2, 3] (by decide) (by decide)

/-- C2: for every non-empty list of entries with pairwise distinct keys, every
key and value non-empty and free of `=`, `,` and the four brackets,
`convertValue` with tag `map` on the map text returns, with a nil error, the
mapping whose keys are the keys of the entries, each key mapped to what
`convertUnknownValue` returns for its value (for every positive recursion
budget). -/
theorem convertValue_map_entries (lib : Lib) (fuel : Nat)
    (entries : List (GoString × GoString)) (hne : entries ≠ [])
    (hclean : ∀ e ∈ entries, e.1 ≠ [] ∧ e.2 ≠ [] ∧ (∀ c ∈ e.1, cleanByte c) ∧
      (∀ c ∈ e.2, cleanByte c))
    (hnd : (entries.map Prod.fst).Nodup) :
    ∃ vals : List Value,
      List.Forall₂ (fun e x => convertUnknownValue lib (fuel + 1) e.2 = .ok x) entries vals ∧
      convertValue lib (convertUnknownValue lib (fuel + 1)) "map".toList (mapText entries) =
        .ok (.map ((entries.map Prod.fst).zip vals)) := by
  obtain ⟨vals, hvals⟩ := exists_vals (convertUnknownValue lib (fuel + 1)) entries
    (fun e he => convertUnknownValue_clean lib fuel e.2 (hclean e he).2.1 (hclean e he).2.2.2)
  refine ⟨vals, hvals, ?_⟩
  rw [convertValue_map lib _ _ (by simp [mapText])]
  exact parseMap_entries _ entries hne hclean hnd vals hvals

/-- C2 at the text of the entries a=1 and b=hello: the hypotheses hold, and the
mapping returned takes "a" to the integer 1 and "b" to the string "hello". -/
theorem convertValue_map_entries_witness :
    mapText [("a".toList, "1".toList), ("b".toList, "hello".toList)] =
        "\x7ba=1, b=hello\x7d".toList ∧
    (∃ vals : List Value,
      List.Forall₂ (fun e x => convertUnknownValue Lib.rejecting 1 e.2 = .ok x)
        [("a".toList, "1".toList), ("b".toList, "hello".toList)] vals ∧
      convertValue Lib.rejecting (convertUnknownValue Lib.rejecting 1) "map".toList
          (mapText [("a".toList, "1".toList), ("b".toList, "hello".toList)]) =
        .ok (.map (["a".toList, "b".toList].zip vals))) ∧
    convertValue Lib.rejecting (convertUnknownValue Lib.rejecting 1) "map".toList
        "\x7ba=1, b=hello\x7d".toList =
      .ok (.map [("a".toList, .int 1), ("b".toList, .str "hello".toList)]) :=
  ⟨by decide,
   convertValue_map_entries Lib.rejecting 0
     [("a".toList, "1".toList), ("b".toList, "hello".toList)] (by decide) (by decide)
     (by decide),
   by decide!⟩

/-! ## Failing paths -/

theorem convertUnknownValue_nil (lib : Lib) (fuel : Nat) :
    convertUnknownValue lib (fuel + 1) [] = .panic .indexOutOfRange := by
  have h : ∀ w, (ParseInt [] w).2 ≠ none := by intro w; simp [ParseInt]
  rw [convertUnknownValue, if_neg (h 16), if_neg (h 32), if_neg (h 64)]
  rfl

theorem parseLoop_open_map (cuv : GoString → Res Value) (isMap : Bool)
    (before rest : GoString) (st : ParseState)
    (hpos : before = [] ∨ before.head? = some '=' ∨
      (before.head? = some ' ' ∧ before.tail.head? = some ',') ∨
      before.head? = some '\x7b' ∨ before.head? = some '[') :
    parseLoop cuv isMap before ('\x7b' :: rest) st =
      parseLoop cuv isMap ('\x7b' :: before) rest
        { st with currentValue := st.currentValue ++ ['\x7b'],
                  ignoreMap := st.ignoreMap + 1 } := by
  rcases hpos with h | h | h | h | h
  · cases rest <;> simp [parseLoop, h]
  · cases rest <;> simp [parseLoop, h]
  · cases rest <;> simp [parseLoop, h.1, h.2]
  · cases rest <;> simp [parseLoop, h]
  · cases rest <;> simp [parseLoop, h]

theorem parseLoop_close_map (cuv : GoString → Res Value) (isMap : Bool)
    (before rest : GoString) (st : ParseState) :
    parseLoop cuv isMap before ('\x7d' :: rest) st =
      parseLoop cuv isMap ('\x7d' :: before) rest
        { st with currentValue := st.currentValue ++ ['\x7d'],
                  ignoreMap := st.ignoreMap - 1 } := by
  cases rest with
  | nil => simp [parseLoop]
  | cons d r => simp [parseLoop]

theorem parseMap_outer_inner (cuv : GoString → Res Value) :
    parseMap cuv "\x7bouter=\x7binner=1\x7d\x7d".toList =
      match cuv "\x7binner".toList with
      | .ok x => .ok (.map [("outer".toList, x)])
      | .err e => .err e
      | .panic p => .panic p
      | .outOfFuel => .outOfFuel := by
  have h1 := parseLoop_plain cuv true "outer=".toList (by decide) []
    "\x7binner=1\x7d".toList ParseState.init
  have h2 := parseLoop_open_map cuv true "=retuo".toList "inner=1\x7d".toList
    { ParseState.init with currentValue := "outer=".toList } (Or.inr (Or.inl rfl))
  have h3 := parseLoop_plain cuv true "inner=1".toList (by decide) "\x7b=retuo".toList
    "\x7d".toList
    { ParseState.init with currentValue := "outer=\x7b".toList, ignoreMap := 1 }
  have h4 := parseLoop_close_map cuv true "1=renni\x7b=retuo".toList []
    { ParseState.init with currentValue := "outer=\x7binner=1".toList, ignoreMap := 1 }
  have hloop : parseLoop cuv true [] "outer=\x7binner=1\x7d".toList ParseState.init =
      .ok { ParseState.init with currentValue := "outer=\x7binner=1\x7d".toList } := by
    refine (h1.trans (h2.trans (h3.trans (h4.trans ?_))))
    rw [parseLoop]
    rfl
  rw [parseMap, parse_eq_parseFinish cuv _ true (by decide)]
  have hint : (List.drop 1 "\x7bouter=\x7binner=1\x7d\x7d".toList).take
      ("\x7bouter=\x7binner=1\x7d\x7d".toList.length - 2) =
      "outer=\x7binner=1\x7d".toList := by decide
  rw [hint, hloop, parseFinish, if_pos (by decide), finalise, if_pos rfl]
  have hsplit : Split "outer=\x7binner=1\x7d".toList '=' =
      ["outer".toList, "\x7binner".toList, "1\x7d".toList] := by decide
  simp only [addToMap, ParseState.init, hsplit]
  cases cuv "\x7binner".toList <;> rfl

theorem addToMap_no_equals (cuv : GoString → Res Value) (m : GoMap) (e : GoString)
    (h : '=' ∉ e) : addToMap cuv m e = .panic .indexOutOfRange := by
  rw [addToMap, Split_of_not_mem e '=' h]

/-- What `addToMap` does with an element text that has two `=`: the value is
the text between the first and the second `=`; what follows the second `=` is
dropped. -/
theorem addToMap_second_equals (cuv : GoString → Res Value) (m : GoMap)
    (k r1 r2 : GoString) (hk : '=' ∉ k) (hr : '=' ∉ r1) :
    addToMap cuv m (k ++ '=' :: (r1 ++ '=' :: r2)) = addToMap cuv m (k ++ '=' :: r1) := by
  rw [addToMap, addToMap, Split_append_sep k _ '=' hk, Split_append_sep r1 _ '=' hr,
    Split_append_sep k _ '=' hk, Split_of_not_mem r1 '=' hr]

/-- C3: `convertValue` with tag `map` on the text of the entry
`outer` = (the map text of `inner` = 1) returns the mapping of "outer" to the
string made of the opening brace and `inner`, not to the mapping of "inner" to
1: `addToMap` splits the element at every `=` and takes the second piece. -/
theorem convertValue_map_outer_inner (lib : Lib) (fuel : Nat) :
    convertValue lib (convertUnknownValue lib (fuel + 1)) "map".toList
        "\x7bouter=\x7binner=1\x7d\x7d".toList =
      .ok (.map [("outer".toList, .str "\x7binner".toList)]) := by
  have hcuv : convertUnknownValue lib (fuel + 1) "\x7binner".toList =
      .ok (.str "\x7binner".toList) := by
    rw [convertUnknownValue_not_int lib fuel _ (by decide) (by decide),
      if_neg (by decide), if_neg (by decide)]
  rw [convertValue_map lib _ _ (by decide), parseMap_outer_inner, hcuv]

/-- C4: for every key `k` (empty or not) free of `=`, `,` and the four brackets,
`convertValue` with tag `map` on the text of the single entry `k=` with an
empty value panics (index out of range, at `v[0]` in `convertUnknownValue`);
it does not return the mapping of `k` to nil. -/
theorem convertValue_map_empty_value (lib : Lib) (fuel : Nat) (k : GoString)
    (hclean : ∀ c ∈ k, cleanByte c) :
    convertValue lib (convertUnknownValue lib (fuel + 1)) "map".toList
        ('\x7b' :: (k ++ ['=']) ++ ['\x7d']) = .panic .indexOutOfRange := by
  have hplain : ∀ e ∈ [k ++ ['=']], ∀ c ∈ e, plainByte c := by
    intro e he c hc
    rw [List.mem_singleton.mp he] at hc
    rcases List.mem_append.mp hc with hc | hc
    · obtain ⟨_, a, b, c', d, f⟩ := hclean c hc; exact ⟨a, b, c', d, f⟩
    · rw [List.mem_singleton.mp hc]; decide
  have hkeq : '=' ∉ k := fun hm => (hclean _ hm).1 rfl
  rw [convertValue_map lib _ _ (by simp), parseMap,
    parse_eq_parseFinish _ _ true (by simp), interior_of_brackets,
    ← intercalate_singleton ", ".toList (k ++ ['='])]
  rw [parseFinish_elems _ true [k ++ ['=']] (by simp) hplain (by simp) [] _ rfl rfl rfl]
  simp only [emitAll, finalise, if_true, addToMap]
  rw [Split_append_sep k [] '=' hkeq]
  simp only [Split, convertUnknownValue_nil, container]

/-- C4 at the key "k": the text is the map text of `k=`, and the call panics. -/
theorem convertValue_map_empty_value_witness :
    '\x7b' :: ("k".toList ++ ['=']) ++ ['\x7d'] = "\x7bk=\x7d".toList ∧
    convertValue Lib.rejecting (convertUnknownValue Lib.rejecting 1) "map".toList
        ('\x7b' :: ("k".toList ++ ['=']) ++ ['\x7d']) = .panic .indexOutOfRange :=
  ⟨by decide, convertValue_map_empty_value Lib.rejecting 0 "k".toList (by decide)⟩

/-- C8 (amended): for every non-empty text, `convertValue` with tag `struct`,
and with any tag outside the closed tag set, panics with the error that names
the text (and the tag); it does not return a failure to its caller. -/
theorem convertValue_struct_unknown (lib : Lib) (cuv : GoString → Res Value) (val : GoString)
    (hval : val ≠ []) :
    convertValue lib cuv "struct".toList val =
        .panic (.error (.errorf ("cannot parse \x60".toList ++ val ++
          "\x60 as struct".toList))) ∧
    ∀ t : GoString, t ∉ closedTags →
      convertValue lib cuv t val =
        .panic (.error (.errorf ("unknown type \x60".toList ++ t ++
          "\x60 with value ".toList ++ val))) := by
  constructor
  · rw [convertValue, if_neg hval, if_neg (by decide), if_neg (by decide), if_neg (by decide),
      if_neg (by decide), if_neg (by decide), if_neg (by decide), if_neg (by decide),
      if_neg (by decide), if_neg (by decide), if_neg (by decide), if_pos rfl]
  · intro t ht
    simp only [closedTags, List.mem_cons, List.mem_singleton, List.not_mem_nil, or_false,
      not_or] at ht
    obtain ⟨h1, h2, h3, h4, h5, h6, h7, h8, h9, h10, h11, h12, h13, h14, h15, h16⟩ := ht
    rw [convertValue, if_neg hval, if_neg h1, if_neg h2, if_neg h3, if_neg h4, if_neg h5,
      if_neg (not_or.mpr ⟨h6, h7⟩), if_neg (not_or.mpr ⟨h8, h9⟩), if_neg h10, if_neg h11,
      if_neg h12, if_neg h16, if_neg h13, if_neg h14, if_neg h15]

/-- C8 at the text of the entry x=1 in braces: with tag `struct` and with the
unknown tag `json` the call panics. -/
theorem convertValue_struct_unknown_witness :
    convertValue Lib.rejecting (convertUnknownValue Lib.rejecting 1) "struct".toList
        "\x7bx=1\x7d".toList =
      .panic (.error (.errorf "cannot parse \x60\x7bx=1\x7d\x60 as struct".toList)) ∧
    convertValue Lib.rejecting (convertUnknownValue Lib.rejecting 1) "json".toList
        "\x7bx=1\x7d".toList =
      .panic (.error (.errorf "unknown type \x60json\x60 with value \x7bx=1\x7d".toList)) :=
  ⟨(convertValue_struct_unknown Lib.rejecting _ "\x7bx=1\x7d".toList (by decide)).1,
   (convertValue_struct_unknown Lib.rejecting _ "\x7bx=1\x7d".toList (by decide)).2
     "json".toList (by decide)⟩

/-- C8 as stated fails at tag `struct` and the text of the entry x=1 in braces
(and at the unknown tag `json`): the outcome is a panic, not a returned
failure. -/
theorem convertValue_struct_panics :
    (convertValue Lib.rejecting (convertUnknownValue Lib.rejecting 1) "struct".toList
        "\x7bx=1\x7d".toList).isErr = false ∧
    (convertValue Lib.rejecting (convertUnknownValue Lib.rejecting 1) "struct".toList
        "\x7bx=1\x7d".toList).isPanic = true ∧
    (convertValue Lib.rejecting (convertUnknownValue Lib.rejecting 1) "json".toList
        "\x7bx=1\x7d".toList).isErr = false ∧
    (convertValue Lib.rejecting (convertUnknownValue Lib.rejecting 1) "json".toList
        "\x7bx=1\x7d".toList).isPanic = true := by
  decide!

theorem parse_interior (cuv : GoString → Res Value) (isMap : Bool) (a b : Char)
    (interior : GoString) :
    parse cuv (a :: interior ++ [b]) isMap =
      parseFinish cuv isMap (parseLoop cuv isMap [] interior ParseState.init) := by
  rw [parse_eq_parseFinish cuv _ isMap (by simp), interior_of_brackets]

/-- C9 (amended): for the tags `map`, `row` and `array` and every text of at
least two bytes, `convertValue` does not examine the first and the last byte:
the outcome is that of the scan of the bytes between them, so it is the same
whatever these two bytes are, the brackets of the tag or not. -/
theorem convertValue_composite_ignores_outer_bytes (lib : Lib) (cuv : GoString → Res Value)
    (a b a' b' : Char) (interior : GoString) :
    convertValue lib cuv "map".toList (a :: interior ++ [b]) =
        convertValue lib cuv "map".toList (a' :: interior ++ [b']) ∧
    convertValue lib cuv "row".toList (a :: interior ++ [b]) =
        convertValue lib cuv "row".toList (a' :: interior ++ [b']) ∧
    convertValue lib cuv "array".toList (a :: interior ++ [b]) =
        convertValue lib cuv "array".toList (a' :: interior ++ [b']) ∧
    convertValue lib cuv "map".toList (a :: interior ++ [b]) =
        parseFinish cuv true (parseLoop cuv true [] interior ParseState.init) ∧
    convertValue lib cuv "array".toList (a :: interior ++ [b]) =
        parseFinish cuv false (parseLoop cuv false [] interior ParseState.init) := by
  have hm : ∀ x y : Char, convertValue lib cuv "map".toList (x :: interior ++ [y]) =
      parseFinish cuv true (parseLoop cuv true [] interior ParseState.init) := by
    intro x y
    rw [convertValue_map lib cuv _ (by simp), parseMap, parse_interior]
  have hr : ∀ x y : Char, convertValue lib cuv "row".toList (x :: interior ++ [y]) =
      parseFinish cuv true (parseLoop cuv true [] interior ParseState.init) := by
    intro x y
    rw [convertValue_row lib cuv _ (by simp), parseMap, parse_interior]
  have ha : ∀ x y : Char, convertValue lib cuv "array".toList (x :: interior ++ [y]) =
      parseFinish cuv false (parseLoop cuv false [] interior ParseState.init) := by
    intro x y
    rw [convertValue_array lib cuv _ (by simp), parseArray, parse_interior]
  exact ⟨by rw [hm, hm], by rw [hr, hr], by rw [ha, ha], hm a b, ha a b⟩

/-- C9 as stated fails at "abc" under `array` and at "xk=vx" under `map` and
`row`: neither text is enclosed in the brackets of the tag, and each is turned
into a value. -/
theorem convertValue_unbracketed_value :
    convertValue Lib.rejecting (convertUnknownValue Lib.rejecting 1) "array".toList
        "abc".toList = .ok (.arr []) ∧
    convertValue Lib.rejecting (convertUnknownValue Lib.rejecting 1) "map".toList
        "xk=vx".toList = .ok (.map [("k".toList, .str "v".toList)]) ∧
    convertValue Lib.rejecting (convertUnknownValue Lib.rejecting 1) "row".toList
        "xk=vx".toList = .ok (.map [("k".toList, .str "v".toList)]) := by
  decide!

/-- C10: `convertValue` with tag `map` (and `row`) on the map text of the one
element `a`, and on the map text of the elements `a=1` and `b`, panics (index
out of range, at `keyVal[1]` in `addToMap`); it does not return a failure. -/
theorem convertValue_map_no_equals (lib : Lib) (fuel : Nat) :
    convertValue lib (convertUnknownValue lib (fuel + 1)) "map".toList "\x7ba\x7d".toList =
      .panic .indexOutOfRange ∧
    convertValue lib (convertUnknownValue lib (fuel + 1)) "row".toList "\x7ba\x7d".toList =
      .panic .indexOutOfRange ∧
    convertValue lib (convertUnknownValue lib (fuel + 1)) "map".toList
        "\x7ba=1, b\x7d".toList = .panic .indexOutOfRange := by
  have h1 : parseMap (convertUnknownValue lib (fuel + 1)) "\x7ba\x7d".toList =
      .panic .indexOutOfRange := by
    have e : "\x7ba\x7d".toList = '\x7b' :: List.intercalate ", ".toList ["a".toList] ++ ['\x7d'] := by
      decide
    rw [e, parseMap, parse_interior,
      parseFinish_elems _ true ["a".toList] (by decide) (by decide) (by decide) [] _ rfl rfl rfl]
    simp only [emitAll, finalise, if_true, ParseState.init]
    rw [addToMap_no_equals _ _ _ (by decide)]
    rfl
  have h2 : parseMap (convertUnknownValue lib (fuel + 1)) "\x7ba=1, b\x7d".toList =
      .panic .indexOutOfRange := by
    have e : "\x7ba=1, b\x7d".toList =
        '\x7b' :: List.intercalate ", ".toList ["a=1".toList, "b".toList] ++ ['\x7d'] := by
      decide
    have hone : convertUnknownValue lib (fuel + 1) "1".toList = .ok (.int 1) :=
      (convertUnknownValue_int lib fuel "1".toList 1 (by decide) (by decide)).2
    rw [e, parseMap, parse_interior,
      parseFinish_elems _ true ["a=1".toList, "b".toList] (by decide) (by decide) (by decide)
        [] _ rfl rfl rfl]
    simp only [emitAll, finalise, if_true, ParseState.init]
    have hent : addToMap (convertUnknownValue lib (fuel + 1)) [] "a=1".toList =
        .ok (GoMap.insert [] "a".toList (.int 1)) :=
      addToMap_entry _ [] "a".toList "1".toList (.int 1) (by decide) (by decide) hone
    rw [hent]
    simp only
    rw [addToMap_no_equals _ _ _ (by decide)]
    rfl
  exact ⟨by rw [convertValue_map lib _ _ (by decide), h1],
    by rw [convertValue_row lib _ _ (by decide), h1],
    by rw [convertValue_map lib _ _ (by decide), h2]⟩

/-! ## Empty text -/

/-- C5: for every type tag whatsoever, `convertValue` of the empty text returns
the absent value `nil` with a nil error: no failure, no panic, and no use of
the recursion budget. -/
theorem convertValue_empty (lib : Lib) (cuv : GoString → Res Value) (athenaType : GoString) :
    convertValue lib cuv athenaType [] = .ok .null := by
  simp [convertValue]

/-! ## Booleans and empty composites -/

theorem convertValue_boolean (lib : Lib) (cuv : GoString → Res Value) (s : GoString)
    (hs : s ≠ []) :
    convertValue lib cuv "boolean".toList s =
      if s = "true".toList then .ok (.bool true)
      else if s = "false".toList then .ok (.bool false)
      else .err (.errorf ("cannot parse \x27".toList ++ s ++ "\x27 as boolean".toList)) := by
  rw [convertValue, if_neg hs, if_neg (by decide), if_neg (by decide), if_neg (by decide),
    if_pos rfl]

/-- C12: for every non-empty text `s`, `convertValue` with tag `boolean`
returns the boolean true exactly when `s` is "true", the boolean false exactly
when `s` is "false", and for every other `s` returns a failure whose message
contains `s`. -/
theorem convertValue_boolean_spec (lib : Lib) (cuv : GoString → Res Value) (s : GoString)
    (hs : s ≠ []) :
    (convertValue lib cuv "boolean".toList s = .ok (.bool true) ↔ s = "true".toList) ∧
    (convertValue lib cuv "boolean".toList s = .ok (.bool false) ↔ s = "false".toList) ∧
    (s ≠ "true".toList → s ≠ "false".toList →
      ∃ msg : GoString, convertValue lib cuv "boolean".toList s = .err (.errorf msg) ∧
        s <:+: msg) := by
  rw [convertValue_boolean lib cuv s hs]
  by_cases ht : s = "true".toList
  · subst ht
    refine ⟨by simp, by decide, fun h => absurd rfl h⟩
  · by_cases hf : s = "false".toList
    · subst hf
      refine ⟨by decide, by simp, fun _ h => absurd rfl h⟩
    · rw [if_neg ht, if_neg hf]
      refine ⟨Iff.intro (fun h => by cases h) (fun h => absurd h ht),
        Iff.intro (fun h => by cases h) (fun h => absurd h hf), fun _ _ => ⟨_, rfl, ?_⟩⟩
      exact ⟨"cannot parse \x27".toList, "\x27 as boolean".toList, rfl⟩

/-- C12 at the text "TRUE": a failure whose message contains "TRUE". -/
theorem convertValue_boolean_spec_witness :
    convertValue Lib.rejecting (convertUnknownValue Lib.rejecting 1) "boolean".toList
        "TRUE".toList =
      .err (.errorf "cannot parse \x27TRUE\x27 as boolean".toList) ∧
    ∃ msg : GoString,
      convertValue Lib.rejecting (convertUnknownValue Lib.rejecting 1) "boolean".toList
          "TRUE".toList = .err (.errorf msg) ∧ "TRUE".toList <:+: msg :=
  ⟨by decide,
   (convertValue_boolean_spec Lib.rejecting _ "TRUE".toList (by decide)).2.2 (by decide)
     (by decide)⟩

/-- C13: an empty interior yields an empty composite and no failure:
`convertValue` returns the empty sequence for tag `array` on "[]" and the
empty mapping for the tags `map` and `row` on the pair of braces. -/
theorem convertValue_empty_composites (lib : Lib) (cuv : GoString → Res Value) :
    convertValue lib cuv "array".toList "[]".toList = .ok (.arr []) ∧
    convertValue lib cuv "map".toList "\x7b\x7d".toList = .ok (.map []) ∧
    convertValue lib cuv "row".toList "\x7b\x7d".toList = .ok (.map []) := by
  refine ⟨?_, ?_, ?_⟩
  · rw [convertValue_array lib cuv _ (by decide), parseArray]
    exact parse_interior cuv false '[' ']' []
  · rw [convertValue_map lib cuv _ (by decide), parseMap]
    exact parse_interior cuv true '\x7b' '\x7d' []
  · rw [convertValue_row lib cuv _ (by decide), parseMap]
    exact parse_interior cuv true '\x7b' '\x7d' []

/-! ## The row adapter -/

theorem convertRow_loop_cons_ok (lib : Lib) (cuv : GoString → Res Value)
    (columns : List ColumnInfo) (i : Nat) (val : GoString) (rest : List GoString)
    (ret : List Value) (col : ColumnInfo) (x : Value) (hc : columns[i]? = some col)
    (hx : convertValue lib cuv col.Type_ val = .ok x) (hlt : i < ret.length) :
    convertRow.loop lib cuv columns i (val :: rest) ret =
      convertRow.loop lib cuv columns (i + 1) rest (ret.set i x) := by
  rw [convertRow.loop]
  simp only [hc, hx, if_pos hlt]

theorem convertRow_loop_cons_err (lib : Lib) (cuv : GoString → Res Value)
    (columns : List ColumnInfo) (i : Nat) (val : GoString) (rest : List GoString)
    (ret : List Value) (col : ColumnInfo) (e : GoError) (hc : columns[i]? = some col)
    (hx : convertValue lib cuv col.Type_ val = .err e) :
    convertRow.loop lib cuv columns i (val :: rest) ret = (ret, .err e) := by
  rw [convertRow.loop]
  simp only [hc, hx]

theorem cellOutcome_not_panic (lib : Lib) (cuv : GoString → Res Value)
    (columns : List ColumnInfo) (cells : List GoString) (i : Nat) (val : GoString)
    (hcell : cells[i]? = some val)
    (h : ∀ p, cellOutcome lib cuv columns cells i ≠ .panic p) :
    ∃ col, columns[i]? = some col ∧
      cellOutcome lib cuv columns cells i = convertValue lib cuv col.Type_ val := by
  cases hc : columns[i]? with
  | none =>
    exfalso
    apply h .indexOutOfRange
    rw [cellOutcome, hc]
  | some col =>
    refine ⟨col, rfl, ?_⟩
    rw [cellOutcome, hc, hcell]

/-- The loop of `convertRow` when the first `k` of the remaining cells coerce
and the next one, if there is one, returns a failure: the outcome is `stop`,
the nil error or that failure. -/
theorem convertRow_loop_spec (lib : Lib) (cuv : GoString → Res Value)
    (columns : List ColumnInfo) (cells : List GoString) :
    ∀ (rest : List GoString) (i : Nat) (ret : List Value) (k : Nat) (stop : Res Unit),
      (∀ j, rest[j]? = cells[i + j]?) → i + rest.length ≤ ret.length → k ≤ rest.length →
      (∀ j, j < k → ∃ x, cellOutcome lib cuv columns cells (i + j) = .ok x) →
      (k = rest.length → stop = .ok ()) →
      (k < rest.length → ∃ e, cellOutcome lib cuv columns cells (i + k) = .err e ∧
        stop = .err e) →
      (convertRow.loop lib cuv columns i rest ret).2 = stop ∧
      (∀ j, j < k → ∃ x, cellOutcome lib cuv columns cells (i + j) = .ok x ∧
        (convertRow.loop lib cuv columns i rest ret).1[i + j]? = some x) ∧
      (∀ j, j < i ∨ i + k ≤ j →
        (convertRow.loop lib cuv columns i rest ret).1[j]? = ret[j]?) := by
  intro rest
  induction rest with
  | nil =>
    intro i ret k stop _ _ hk _ hstop _
    have hk0 : k = 0 := by simpa using hk
    subst hk0
    exact ⟨(hstop rfl).symm, fun j hj => absurd hj (Nat.not_lt_zero j), fun j _ => rfl⟩
  | cons val rest ih =>
    intro i ret k stop hrest hret hk hok hstop herr
    simp only [List.length_cons] at hret hk hstop herr
    have hcell : cells[i]? = some val := by
      have := hrest 0
      simpa using this.symm
    have hlt : i < ret.length := by omega
    cases k with
    | zero =>
      obtain ⟨e, he, hst⟩ := herr (by omega)
      rw [Nat.add_zero] at he
      obtain ⟨col, hc, hout⟩ := cellOutcome_not_panic lib cuv columns cells i val hcell
        (by rw [he]; intro p hp; cases hp)
      rw [convertRow_loop_cons_err lib cuv columns i val rest ret col e hc (by rw [← hout, he]),
        hst]
      exact ⟨rfl, fun j hj => absurd hj (Nat.not_lt_zero j), fun j _ => rfl⟩
    | succ k =>
      obtain ⟨x, hx⟩ := hok 0 (Nat.succ_pos k)
      rw [Nat.add_zero] at hx
      obtain ⟨col, hc, hout⟩ := cellOutcome_not_panic lib cuv columns cells i val hcell
        (by rw [hx]; intro p hp; cases hp)
      rw [convertRow_loop_cons_ok lib cuv columns i val rest ret col x hc (by rw [← hout, hx])
        hlt]
      have hidx : ∀ j, i + 1 + j = i + (j + 1) := by intro j; omega
      have hrest' : ∀ j, rest[j]? = cells[i + 1 + j]? := by
        intro j
        have := hrest (j + 1)
        rw [List.getElem?_cons_succ] at this
        rw [this, hidx]
      obtain ⟨h1, h2, h3⟩ := ih (i + 1) (ret.set i x) k stop hrest'
        (by rw [List.length_set]; omega) (by omega)
        (fun j hj => by rw [hidx]; exact hok (j + 1) (by omega))
        (fun h => hstop (by omega))
        (fun h => by rw [hidx]; exact herr (by omega))
      refine ⟨h1, ?_, ?_⟩
      · intro j hj
        cases j with
        | zero =>
          refine ⟨x, hx, ?_⟩
          show (convertRow.loop lib cuv columns (i + 1) rest (ret.set i x)).1[i]? = some x
          rw [h3 i (Or.inl (by omega)), List.getElem?_set_self hlt]
        | succ j =>
          obtain ⟨y, hy1, hy2⟩ := h2 j (by omega)
          rw [hidx] at hy1 hy2
          exact ⟨y, hy1, hy2⟩
      · intro j hj
        rw [h3 j (by omega), List.getElem?_set_ne (by omega)]

/-- C14: for column descriptors and raw cells of equal length `n` and a
destination of length at least `n`: if every cell coerces, `convertRow` returns
the nil error and the destination holds at every index `i < n` the value
`convertValue` returns for cell `i` under the type of column `i`; if `i` is the
least index whose cell returns a failure, `convertRow` returns a failure, the
destination holds the coerced value at every `j < i` and is unchanged at every
`j ≥ i`. -/
theorem convertRow_spec (lib : Lib) (cuv : GoString → Res Value) (columns : List ColumnInfo)
    (cells : List GoString) (ret : List Value) (_hlen : columns.length = cells.length)
    (hret : cells.length ≤ ret.length) :
    ((∀ i, i < cells.length → ∃ x, cellOutcome lib cuv columns cells i = .ok x) →
      (convertRow lib cuv columns cells ret).2 = .ok () ∧
      ∀ i, i < cells.length → ∃ x, cellOutcome lib cuv columns cells i = .ok x ∧
        (convertRow lib cuv columns cells ret).1[i]? = some x) ∧
    (∀ i, i < cells.length →
      (∀ j, j < i → ∃ x, cellOutcome lib cuv columns cells j = .ok x) →
      (∃ e, cellOutcome lib cuv columns cells i = .err e) →
      (convertRow lib cuv columns cells ret).2.isErr = true ∧
      (∀ j, j < i → ∃ x, cellOutcome lib cuv columns cells j = .ok x ∧
        (convertRow lib cuv columns cells ret).1[j]? = some x) ∧
      (∀ j, i ≤ j → (convertRow lib cuv columns cells ret).1[j]? = ret[j]?)) := by
  constructor
  · intro hall
    obtain ⟨h1, h2, _⟩ := convertRow_loop_spec lib cuv columns cells cells 0 ret cells.length
      (.ok ()) (fun j => by rw [Nat.zero_add]) (by omega) (Nat.le_refl _)
      (fun j hj => by rw [Nat.zero_add]; exact hall j hj) (fun _ => rfl)
      (fun h => absurd h (Nat.lt_irrefl _))
    refine ⟨h1, fun i hi => ?_⟩
    obtain ⟨x, hx1, hx2⟩ := h2 i hi
    rw [Nat.zero_add] at hx1 hx2
    exact ⟨x, hx1, hx2⟩
  · intro i hi hok ⟨e, he⟩
    obtain ⟨h1, h2, h3⟩ := convertRow_loop_spec lib cuv columns cells cells 0 ret i
      (.err e) (fun j => by rw [Nat.zero_add]) (by omega) (Nat.le_of_lt hi)
      (fun j hj => by rw [Nat.zero_add]; exact hok j hj) (fun h => absurd h (Nat.ne_of_lt hi))
      (fun _ => ⟨e, by rw [Nat.zero_add]; exact he, rfl⟩)
    refine ⟨?_, fun j hj => ?_, fun j hj => h3 j (Or.inr (by omega))⟩
    · show (convertRow.loop lib cuv columns 0 cells ret).2.isErr = true
      rw [h1]; rfl
    · obtain ⟨x, hx1, hx2⟩ := h2 j hj
      rw [Nat.zero_add] at hx1 hx2
      exact ⟨x, hx1, hx2⟩

/-- C14 at the row of `exampleColumns` and `exampleCells` with a destination of
three nils: the first cell is coerced and stored, the second returns a failure
and the rest of the destination is unchanged. -/
theorem convertRow_spec_witness :
    convertRow Lib.rejecting (convertUnknownValue Lib.rejecting 1) exampleColumns exampleCells
        [.null, .null, .null] =
      ([.int 7, .null, .null],
        .err (.errorf "cannot parse \x27TRUE\x27 as boolean".toList)) ∧
    ((convertRow Lib.rejecting (convertUnknownValue Lib.rejecting 1) exampleColumns
        exampleCells [.null, .null, .null]).2.isErr = true ∧
      (∀ j, j < 1 → ∃ x, cellOutcome Lib.rejecting (convertUnknownValue Lib.rejecting 1)
          exampleColumns exampleCells j = .ok x ∧
        (convertRow Lib.rejecting (convertUnknownValue Lib.rejecting 1) exampleColumns
          exampleCells [.null, .null, .null]).1[j]? = some x) ∧
      (∀ j, 1 ≤ j → (convertRow Lib.rejecting (convertUnknownValue Lib.rejecting 1)
          exampleColumns exampleCells [.null, .null, .null]).1[j]? =
        [Value.null, .null, .null][j]?)) :=
  ⟨by decide!,
   (convertRow_spec Lib.rejecting (convertUnknownValue Lib.rejecting 1) exampleColumns
      exampleCells [.null, .null, .null] (by decide) (by decide)).2 1 (by decide)
      (fun j hj => by
        obtain rfl : j = 0 := by omega
        exact ⟨.int 7, by decide!⟩)
      ⟨.errorf "cannot parse \x27TRUE\x27 as boolean".toList, by decide!⟩⟩

/-- C15 (amended): when `convertRow` fails because the cell at index `i` is
the first that does not coerce, the failure it returns is the failure that
`convertValue` returned for that cell, as it is. -/
theorem convertRow_failure (lib : Lib) (cuv : GoString → Res Value)
    (columns : List ColumnInfo) (cells : List GoString) (ret : List Value)
    (hret : cells.length ≤ ret.length) (i : Nat) (hi : i < cells.length)
    (hok : ∀ j, j < i → ∃ x, cellOutcome lib cuv columns cells j = .ok x) (e : GoError)
    (he : cellOutcome lib cuv columns cells i = .err e) :
    (convertRow lib cuv columns cells ret).2 = .err e :=
  (convertRow_loop_spec lib cuv columns cells cells 0 ret i (.err e)
    (fun j => by rw [Nat.zero_add]) (by omega) (Nat.le_of_lt hi)
    (fun j hj => by rw [Nat.zero_add]; exact hok j hj) (fun h => absurd h (Nat.ne_of_lt hi))
    (fun _ => ⟨e, by rw [Nat.zero_add]; exact he, rfl⟩)).1

/-- C15 at the row of `exampleColumns` and `exampleCells`: the failure returned
is the failure of `convertValue` for the text "TRUE". -/
theorem convertRow_failure_witness :
    (convertRow Lib.rejecting (convertUnknownValue Lib.rejecting 1) exampleColumns
        exampleCells [.null, .null]).2 =
      .err (.errorf "cannot parse \x27TRUE\x27 as boolean".toList) :=
  convertRow_failure Lib.rejecting (convertUnknownValue Lib.rejecting 1) exampleColumns
    exampleCells [.null, .null] (by decide) 1 (by decide)
    (fun j hj => by
      obtain rfl : j = 0 := by omega
      exact ⟨.int 7, by decide!⟩)
    (.errorf "cannot parse \x27TRUE\x27 as boolean".toList) (by decide!)

/-- C15 as stated fails: the failure for the cell "TRUE" at index 0 of a
column named `first` and the failure for the cell "TRUE" at index 1 of a column
named `second` are the same error value, the one `convertValue` returns for the
text, so it reports neither the cell index nor the column name. -/
theorem convertRow_failure_same :
    (convertRow Lib.rejecting (convertUnknownValue Lib.rejecting 1)
        [⟨"first".toList, "boolean".toList⟩] ["TRUE".toList] [.null]).2 =
      .err (.errorf "cannot parse \x27TRUE\x27 as boolean".toList) ∧
    (convertRow Lib.rejecting (convertUnknownValue Lib.rejecting 1)
        [⟨"a".toList, "string".toList⟩, ⟨"second".toList, "boolean".toList⟩]
        ["x".toList, "TRUE".toList] [.null, .null]).2 =
      .err (.errorf "cannot parse \x27TRUE\x27 as boolean".toList) ∧
    convertValue Lib.rejecting (convertUnknownValue Lib.rejecting 1) "boolean".toList
        "TRUE".toList = .err (.errorf "cannot parse \x27TRUE\x27 as boolean".toList) := by
  decide!

/-! ## The scan of parse, byte by byte -/

theorem parseLoop_cons (cuv : GoString → Res Value) (isMap : Bool) (before : GoString)
    (c : Char) (rest : GoString) (st : ParseState) :
    parseLoop cuv isMap before (c :: rest) st =
      match classify before c rest.head? st.ignoreArray st.ignoreMap with
      | .push ia im =>
        parseLoop cuv isMap (c :: before) rest
          { st with currentValue := st.currentValue ++ [c], ignoreArray := ia, ignoreMap := im }
      | .delimiter =>
        match finalise cuv isMap st with
        | .ok st' =>
          parseLoop cuv isMap (rest.head?.toList ++ c :: before) rest.tail
            { st' with currentValue := [] }
        | .err e => .err e
        | .panic p => .panic p
        | .outOfFuel => .outOfFuel := by
  cases rest with
  | nil =>
    rw [parseLoop]
    simp only [classify, List.head?_nil]
    split_ifs <;> simp_all
  | cons d r =>
    rw [parseLoop]
    simp only [classify, List.head?_cons]
    split_ifs <;> simp_all

theorem classify_none_ne_delimiter (before : GoString) (c : Char) (ia im : Int) :
    classify before c none ia im ≠ .delimiter := by
  unfold classify
  split_ifs <;> simp_all

theorem scanLoop_cons (before : GoString) (c : Char) (rest cur : GoString) (ia im : Int) :
    scanLoop before (c :: rest) cur ia im =
      match classify before c rest.head? ia im with
      | .push ia' im' => scanLoop (c :: before) rest (cur ++ [c]) ia' im'
      | .delimiter =>
        { scanLoop (rest.head?.toList ++ c :: before) rest.tail [] ia im with
          elems := cur :: (scanLoop (rest.head?.toList ++ c :: before) rest.tail [] ia im).elems }
      := by
  cases rest with
  | nil =>
    rw [scanLoop]
    have h := classify_none_ne_delimiter before c ia im
    simp only [List.head?_nil] at h ⊢
    cases hc : classify before c none ia im with
    | push ia' im' => rfl
    | delimiter => exact absurd hc h
  | cons d r =>
    rw [scanLoop]
    cases hc : classify before c (d :: r).head? ia im <;> rfl

theorem finalise_eq_handOne (cuv : GoString → Res Value) (isMap : Bool) (st : ParseState) :
    finalise cuv isMap st =
      Res.map (fun c => { st with mapContainer := c.1, arrayContainer := c.2 })
        (handOne cuv isMap st.currentValue (st.mapContainer, st.arrayContainer)) := by
  unfold finalise handOne
  cases isMap with
  | true =>
    simp only [if_true]
    cases addToMap cuv st.mapContainer st.currentValue <;> rfl
  | false =>
    simp only [Bool.false_eq_true, if_false]
    cases addToArray cuv st.arrayContainer st.currentValue <;> rfl

/-- The loop of `parse` makes the element calls for the element texts of
`scanLoop`, in order, and, when none of them fails, ends with the containers
they leave and with `currentValue` and the counters of `scanLoop`. -/
theorem parseLoop_eq_scan (cuv : GoString → Res Value) (isMap : Bool) :
    ∀ (n : Nat) (rest before : GoString) (st : ParseState), rest.length ≤ n →
      parseLoop cuv isMap before rest st =
        Res.map
          (fun c => ⟨c.1, c.2,
            (scanLoop before rest st.currentValue st.ignoreArray st.ignoreMap).last,
            (scanLoop before rest st.currentValue st.ignoreArray st.ignoreMap).ignoreArray,
            (scanLoop before rest st.currentValue st.ignoreArray st.ignoreMap).ignoreMap⟩)
          (handAll cuv isMap
            (scanLoop before rest st.currentValue st.ignoreArray st.ignoreMap).elems
            (st.mapContainer, st.arrayContainer)) := by
  intro n
  induction n with
  | zero =>
    intro rest before st hn
    obtain rfl : rest = [] := List.length_eq_zero.mp (Nat.le_zero.mp hn)
    rw [parseLoop, scanLoop]
    rfl
  | succ n ih =>
    intro rest before st hn
    cases rest with
    | nil => rw [parseLoop, scanLoop]; rfl
    | cons c rest =>
      simp only [List.length_cons] at hn
      rw [parseLoop_cons, scanLoop_cons]
      cases hc : classify before c rest.head? st.ignoreArray st.ignoreMap with
      | push ia im =>
        simp only
        exact ih rest (c :: before) _ (by omega)
      | delimiter =>
        simp only
        rw [finalise_eq_handOne, handAll]
        cases hh : handOne cuv isMap st.currentValue (st.mapContainer, st.arrayContainer) with
        | ok c' =>
          simp only [Res.map]
          exact ih rest.tail _ _ (by rw [List.length_tail]; omega)
        | err e => rfl
        | panic p => rfl
        | outOfFuel => rfl

theorem handAll_append (cuv : GoString → Res Value) (isMap : Bool) (xs ys : List GoString)
    (c : GoMap × List Value) :
    handAll cuv isMap (xs ++ ys) c =
      match handAll cuv isMap xs c with
      | .ok c' => handAll cuv isMap ys c'
      | .err e => .err e
      | .panic p => .panic p
      | .outOfFuel => .outOfFuel := by
  induction xs generalizing c with
  | nil => rfl
  | cons x xs ih =>
    rw [List.cons_append, handAll, handAll]
    cases handOne cuv isMap x c with
    | ok c' => exact ih c'
    | err e => rfl
    | panic p => rfl
    | outOfFuel => rfl

/-- The function `parse` makes the element calls for the element texts
`handed` of its interior, in order, and returns the container of the mode that
they leave. -/
theorem parse_eq_handed (cuv : GoString → Res Value) (val : GoString) (isMap : Bool)
    (h : 2 ≤ val.length) :
    parse cuv val isMap =
      Res.map (fun c => if isMap then Value.map c.1 else Value.arr c.2)
        (handAll cuv isMap (handed ((val.drop 1).take (val.length - 2))) ([], [])) := by
  rw [parse_eq_parseFinish cuv val isMap h,
    parseLoop_eq_scan cuv isMap _ _ [] ParseState.init (Nat.le_refl _), handed, handAll_append]
  simp only [ParseState.init]
  cases hh : handAll cuv isMap
      (scanLoop [] ((val.drop 1).take (val.length - 2)) [] 0 0).elems ([], []) with
  | ok c =>
    simp only [Res.map, parseFinish]
    by_cases hl : (scanLoop [] ((val.drop 1).take (val.length - 2)) [] 0 0).last.length > 0
    · rw [if_pos hl, if_pos hl, finalise_eq_handOne, handAll]
      simp only
      cases handOne cuv isMap (scanLoop [] ((val.drop 1).take (val.length - 2)) [] 0 0).last c with
      | ok c' => cases isMap <;> rfl
      | err e => rfl
      | panic p => rfl
      | outOfFuel => rfl
    · rw [if_neg hl, if_neg hl]
      cases isMap <;> rfl
  | err e => rfl
  | panic p => rfl
  | outOfFuel => rfl

theorem classify_delimiter {before : GoString} {c : Char} {next : Option Char} {ia im : Int}
    (h : classify before c next ia im = .delimiter) : c = ',' ∧ next = some ' ' := by
  unfold classify at h
  split_ifs at h with h1 h2 h3 h4 h5 h6
  exact h6

/-- Every byte the loop of `parse` reads goes to `currentValue` or is one of
the two bytes of a delimiter: `currentValue` followed by the bytes still to be
read is the concatenation of the element texts handed over, each followed by
the delimiter, and of `currentValue` at the end. -/
theorem scanLoop_concat : ∀ (n : Nat) (rest before cur : GoString) (ia im : Int),
    rest.length ≤ n →
    cur ++ rest =
      ((scanLoop before rest cur ia im).elems.map (fun e => e ++ ", ".toList)).flatten ++
        (scanLoop before rest cur ia im).last := by
  intro n
  induction n with
  | zero =>
    intro rest before cur ia im hn
    obtain rfl : rest = [] := List.length_eq_zero.mp (Nat.le_zero.mp hn)
    simp [scanLoop]
  | succ n ih =>
    intro rest before cur ia im hn
    cases rest with
    | nil => simp [scanLoop]
    | cons c rest =>
      simp only [List.length_cons] at hn
      rw [scanLoop_cons]
      cases hc : classify before c rest.head? ia im with
      | push ia' im' =>
        simp only
        rw [← ih rest (c :: before) (cur ++ [c]) ia' im' (by omega)]
        simp
      | delimiter =>
        obtain ⟨rfl, hnext⟩ := classify_delimiter hc
        obtain ⟨rest', rfl⟩ : ∃ rest', rest = ' ' :: rest' := by
          cases rest with
          | nil => simp at hnext
          | cons d r => simp only [List.head?_cons, Option.some.injEq] at hnext; exact ⟨r, by rw [hnext]⟩
        simp only [List.map_cons, List.flatten_cons, List.tail_cons, List.head?_cons,
          Option.toList]
        have := ih rest' (' ' :: ',' :: before) [] ia im
          (by simp only [List.length_cons] at hn; omega)
        rw [List.nil_append] at this
        have hb : [' '] ++ ',' :: before = ' ' :: ',' :: before := rfl
        rw [hb]
        generalize scanLoop (' ' :: ',' :: before) rest' [] ia im = r at this ⊢
        rw [this]
        simp

/-! ## Claims about the scan -/

/-- C16: in array mode the scan of the interior of the array text of the
elements "[[1]]" and "2" hands over one element text, the whole interior, and
ends with `ignoreArray = 2`: at depth two a closing square bracket does not
lower the counter (the loop lowers it only when it is odd), so the delimiter
after the first element is not taken.  On the interior of the elements
"[1, 2]" and "[3, 4]" (depth one) the scan hands over these two element
texts. -/
theorem scan_nested_array (cuv : GoString → Res Value) :
    parseLoop cuv false [] "[[1]], 2".toList ParseState.init =
      .ok ⟨[], [], "[[1]], 2".toList, 2, 0⟩ ∧
    handed "[[1]], 2".toList = ["[[1]], 2".toList] ∧
    handed "[1, 2], [3, 4]".toList = ["[1, 2]".toList, "[3, 4]".toList] := by
  have hs : scanLoop [] "[[1]], 2".toList [] 0 0 = ⟨[], "[[1]], 2".toList, 2, 0⟩ := by
    decide
  refine ⟨?_, by decide, by decide⟩
  rw [parseLoop_eq_scan cuv false _ _ [] ParseState.init (Nat.le_refl _)]
  simp only [ParseState.init, hs, handAll, Res.map]

/-- C18: `parse` consumes its input exactly once.  For every text of length at
least 2 and either mode, `parse` makes the element calls for the element texts
`handed` of the interior, in order (so when it returns without failure every
one of them was handed over), and the interior is the concatenation of the
element texts handed over inside the loop, each followed by the delimiter, and
of `currentValue` at the end of the loop, which is the last element text when
it is not empty. -/
theorem parse_consumes_once (cuv : GoString → Res Value) (val : GoString) (isMap : Bool)
    (h : 2 ≤ val.length) :
    parse cuv val isMap =
      Res.map (fun c => if isMap then Value.map c.1 else Value.arr c.2)
        (handAll cuv isMap (handed ((val.drop 1).take (val.length - 2))) ([], [])) ∧
    (val.drop 1).take (val.length - 2) =
      ((scanLoop [] ((val.drop 1).take (val.length - 2)) [] 0 0).elems.map
          (fun e => e ++ ", ".toList)).flatten ++
        (scanLoop [] ((val.drop 1).take (val.length - 2)) [] 0 0).last ∧
    handed ((val.drop 1).take (val.length - 2)) =
      (scanLoop [] ((val.drop 1).take (val.length - 2)) [] 0 0).elems ++
        (if (scanLoop [] ((val.drop 1).take (val.length - 2)) [] 0 0).last.length > 0 then
          [(scanLoop [] ((val.drop 1).take (val.length - 2)) [] 0 0).last]
         else []) :=
  ⟨parse_eq_handed cuv val isMap h,
   scanLoop_concat _ ((val.drop 1).take (val.length - 2)) [] [] 0 0 (Nat.le_refl _),
   rfl⟩

/-- C18 at the map text of the entries a=1 and b=2: the element texts handed
over are those of the two entries, and the interior is the first followed by
the delimiter and the second. -/
theorem parse_consumes_once_witness :
    handed "a=1, b=2".toList = ["a=1".toList, "b=2".toList] ∧
    scanLoop [] "a=1, b=2".toList [] 0 0 = ⟨["a=1".toList], "b=2".toList, 0, 0⟩ ∧
    parse (convertUnknownValue Lib.rejecting 1) "\x7ba=1, b=2\x7d".toList true =
      Res.map (fun c => if true then Value.map c.1 else Value.arr c.2)
        (handAll (convertUnknownValue Lib.rejecting 1) true
          (handed ((List.drop 1 "\x7ba=1, b=2\x7d".toList).take
            ("\x7ba=1, b=2\x7d".toList.length - 2))) ([], [])) :=
  ⟨by decide, by decide,
   (parse_consumes_once (convertUnknownValue Lib.rejecting 1) "\x7ba=1, b=2\x7d".toList true
     (by decide)).1⟩

theorem handAll_array (cuv : GoString → Res Value) (es : List GoString)
    (c c' : GoMap × List Value) (h : handAll cuv false es c = .ok c') : c'.2 = c.2 := by
  induction es generalizing c with
  | nil => rw [handAll] at h; cases h; rfl
  | cons e es ih =>
    rw [handAll] at h
    cases hh : handOne cuv false e c with
    | ok c1 =>
      rw [hh] at h
      have h1 : c1.2 = c.2 := by
        unfold handOne addToArray at hh
        simp only [Bool.false_eq_true, if_false] at hh
        cases hc : cuv e with
        | ok x => rw [hc] at hh; cases hh; rfl
        | err x => rw [hc] at hh; cases hh
        | panic x => rw [hc] at hh; cases hh
        | outOfFuel => rw [hc] at hh; cases hh
      rw [ih c1 h, h1]
    | err x => rw [hh] at h; cases h
    | panic x => rw [hh] at h; cases h
    | outOfFuel => rw [hh] at h; cases h

/-- C19: the array accumulator is discarded.  For every text on which
`parseArray` returns without failure, the sequence it returns is empty,
whatever the callee `convertUnknownValue` returns for the elements. -/
theorem parseArray_empty (cuv : GoString → Res Value) (val : GoString)
    (h : (parseArray cuv val).isOk = true) : parseArray cuv val = .ok (.arr []) := by
  by_cases hl : 2 ≤ val.length
  · rw [parseArray, parse_eq_handed cuv val false hl] at h ⊢
    cases hh : handAll cuv false (handed ((val.drop 1).take (val.length - 2))) ([], []) with
    | ok c =>
      have := handAll_array cuv _ _ c hh
      simp only [Res.map, Bool.false_eq_true, if_false]
      rw [this]
    | err x => rw [hh] at h; cases h
    | panic x => rw [hh] at h; cases h
    | outOfFuel => rw [hh] at h; cases h
  · rw [parseArray, parse, if_pos (by omega)] at h
    cases h

/-- C19 at the text "[1, 2, 3]": `parseArray` returns without failure, and
what it returns is the empty sequence. -/
theorem parseArray_empty_witness :
    (parseArray (convertUnknownValue Lib.rejecting 1) "[1, 2, 3]".toList).isOk = true ∧
    parseArray (convertUnknownValue Lib.rejecting 1) "[1, 2, 3]".toList = .ok (.arr []) :=
  ⟨by decide!, parseArray_empty _ "[1, 2, 3]".toList (by decide!)⟩

/-! ## The depth counters -/

theorem parseLoop_step (cuv : GoString → Res Value) (isMap : Bool) (before : GoString)
    (c : Char) (rest : GoString) (st : ParseState) :
    parseLoop cuv isMap before (c :: rest) st =
      match parseStep cuv isMap before c rest st with
      | .ok cfg => parseLoop cuv isMap cfg.1 cfg.2.1 cfg.2.2
      | .err e => .err e
      | .panic p => .panic p
      | .outOfFuel => .outOfFuel := by
  rw [parseLoop_cons, parseStep]
  cases classify before c rest.head? st.ignoreArray st.ignoreMap with
  | push ia im => rfl
  | delimiter =>
    simp only
    cases finalise cuv isMap st <;> rfl

theorem parseStep_rest_length (cuv : GoString → Res Value) (isMap : Bool) (before : GoString)
    (c : Char) (rest : GoString) (st : ParseState) (cfg : GoString × GoString × ParseState)
    (h : parseStep cuv isMap before c rest st = .ok cfg) : cfg.2.1.length ≤ rest.length := by
  unfold parseStep at h
  cases hc : classify before c rest.head? st.ignoreArray st.ignoreMap with
  | push ia im => rw [hc] at h; cases h; exact Nat.le_refl _
  | delimiter =>
    rw [hc] at h
    cases hf : finalise cuv isMap st with
    | ok st' =>
      rw [hf] at h; cases h
      simp only [List.length_tail]; omega
    | err e => rw [hf] at h; cases h
    | panic p => rw [hf] at h; cases h
    | outOfFuel => rw [hf] at h; cases h

theorem classify_ignoreArray {before : GoString} {c : Char} {next : Option Char}
    {ia im ia' im' : Int} (h : classify before c next ia im = .push ia' im') (hia : 0 ≤ ia) :
    0 ≤ ia' := by
  unfold classify at h
  split_ifs at h with h1 h2 h3 h4 h5 h6 <;> cases h <;> try omega
  rcases h3 with ⟨hm, _⟩ | ⟨_, hc⟩
  · have : ia ≠ 0 := by rintro rfl; simp at hm
    omega
  · exact absurd hc (by rw [h4]; decide)

theorem parseStep_ignoreArray (cuv : GoString → Res Value) (isMap : Bool) (before : GoString)
    (c : Char) (rest : GoString) (st : ParseState) (cfg : GoString × GoString × ParseState)
    (h : parseStep cuv isMap before c rest st = .ok cfg) (hia : 0 ≤ st.ignoreArray) :
    0 ≤ cfg.2.2.ignoreArray := by
  unfold parseStep at h
  cases hc : classify before c rest.head? st.ignoreArray st.ignoreMap with
  | push ia im =>
    rw [hc] at h; cases h
    exact classify_ignoreArray hc hia
  | delimiter =>
    rw [hc] at h
    cases hf : finalise cuv isMap st with
    | ok st' =>
      rw [hf] at h; cases h
      show 0 ≤ st'.ignoreArray
      rw [(finalise_ok hf).1]; exact hia
    | err e => rw [hf] at h; cases h
    | panic p => rw [hf] at h; cases h
    | outOfFuel => rw [hf] at h; cases h

theorem reaches_ignoreArray (cuv : GoString → Res Value) (isMap : Bool)
    (cfg cfg' : GoString × GoString × ParseState) (h : Reaches cuv isMap cfg cfg')
    (hia : 0 ≤ cfg.2.2.ignoreArray) : 0 ≤ cfg'.2.2.ignoreArray := by
  induction h with
  | refl cfg => exact hia
  | step before c rest st cfg cfg' h _ ih =>
    exact ih (parseStep_ignoreArray cuv isMap before c rest st cfg h hia)

theorem parseLoop_reaches (cuv : GoString → Res Value) (isMap : Bool) :
    ∀ (n : Nat) (rest before : GoString) (st st' : ParseState), rest.length ≤ n →
      parseLoop cuv isMap before rest st = .ok st' →
      ∃ b, Reaches cuv isMap (before, rest, st) (b, [], st') := by
  intro n
  induction n with
  | zero =>
    intro rest before st st' hn h
    obtain rfl : rest = [] := List.length_eq_zero.mp (Nat.le_zero.mp hn)
    rw [parseLoop] at h
    cases h
    exact ⟨before, Reaches.refl _⟩
  | succ n ih =>
    intro rest before st st' hn h
    cases rest with
    | nil =>
      rw [parseLoop] at h
      cases h
      exact ⟨before, Reaches.refl _⟩
    | cons c rest =>
      simp only [List.length_cons] at hn
      rw [parseLoop_step] at h
      cases hs : parseStep cuv isMap before c rest st with
      | ok cfg =>
        rw [hs] at h
        have hlen := parseStep_rest_length cuv isMap before c rest st cfg hs
        obtain ⟨b, hb⟩ := ih cfg.2.1 cfg.1 cfg.2.2 st' (by omega) h
        exact ⟨b, Reaches.step before c rest st cfg _ hs hb⟩
      | err e => rw [hs] at h; cases h
      | panic p => rw [hs] at h; cases h
      | outOfFuel => rw [hs] at h; cases h

/-- C17 (amended): for every interior and mode, the counter `ignoreArray` is
non-negative after every iteration of the loop of `parse`, and in the state in
which the loop ends when no element call fails. -/
theorem ignoreArray_nonneg (cuv : GoString → Res Value) (isMap : Bool) (values : GoString) :
    (∀ cfg, Reaches cuv isMap ([], values, ParseState.init) cfg → 0 ≤ cfg.2.2.ignoreArray) ∧
    (∀ st, parseLoop cuv isMap [] values ParseState.init = .ok st → 0 ≤ st.ignoreArray) := by
  refine ⟨fun cfg h => reaches_ignoreArray cuv isMap _ cfg h (Int.le_refl 0), fun st h => ?_⟩
  obtain ⟨b, hb⟩ := parseLoop_reaches cuv isMap _ values [] ParseState.init st (Nat.le_refl _) h
  exact reaches_ignoreArray cuv isMap _ _ hb (Int.le_refl 0)

/-- C17 as stated fails in array mode at the text of one opening brace in
square brackets, and at the text of one closing brace in square brackets:
`parse` returns the empty sequence without failure, and the scan ends with
`ignoreMap = 1`, respectively `ignoreMap = -1`. -/
theorem parse_unbalanced_accepted :
    parse (convertUnknownValue Lib.rejecting 1) "[\x7b]".toList false = .ok (.arr []) ∧
    parseLoop (convertUnknownValue Lib.rejecting 1) false [] "\x7b".toList ParseState.init =
      .ok ⟨[], [], "\x7b".toList, 0, 1⟩ ∧
    parse (convertUnknownValue Lib.rejecting 1) "[\x7d]".toList false = .ok (.arr []) ∧
    parseLoop (convertUnknownValue Lib.rejecting 1) false [] "\x7d".toList ParseState.init =
      .ok ⟨[], [], "\x7d".toList, 0, -1⟩ := by
  decide!

/-! ## A trailing delimiter -/

theorem classify_next (before : GoString) (c : Char) (next : Option Char) (ia im : Int)
    (h : next ≠ some ' ') : classify before c next ia im = classify before c none ia im := by
  unfold classify
  simp [h]

/-- The scan of `xs ++ ys`, when `ys` does not start with a space, is the scan
of `xs` followed by the scan of `ys`. -/
theorem scanLoop_append (ys : GoString) (hys : ys.head? ≠ some ' ') :
    ∀ (n : Nat) (xs before cur : GoString) (ia im : Int), xs.length ≤ n →
      scanLoop before (xs ++ ys) cur ia im =
        ⟨(scanLoop before xs cur ia im).elems ++
            (scanLoop (xs.reverse ++ before) ys (scanLoop before xs cur ia im).last
              (scanLoop before xs cur ia im).ignoreArray
              (scanLoop before xs cur ia im).ignoreMap).elems,
          (scanLoop (xs.reverse ++ before) ys (scanLoop before xs cur ia im).last
              (scanLoop before xs cur ia im).ignoreArray
              (scanLoop before xs cur ia im).ignoreMap).last,
          (scanLoop (xs.reverse ++ before) ys (scanLoop before xs cur ia im).last
              (scanLoop before xs cur ia im).ignoreArray
              (scanLoop before xs cur ia im).ignoreMap).ignoreArray,
          (scanLoop (xs.reverse ++ before) ys (scanLoop before xs cur ia im).last
              (scanLoop before xs cur ia im).ignoreArray
              (scanLoop before xs cur ia im).ignoreMap).ignoreMap⟩ := by
  intro n
  induction n with
  | zero =>
    intro xs before cur ia im hn
    obtain rfl : xs = [] := List.length_eq_zero.mp (Nat.le_zero.mp hn)
    simp [scanLoop]
  | succ n ih =>
    intro xs before cur ia im hn
    cases xs with
    | nil => simp [scanLoop]
    | cons c rest =>
      simp only [List.length_cons] at hn
      have hcl : classify before c (rest ++ ys).head? ia im =
          classify before c rest.head? ia im := by
        cases rest with
        | nil =>
          rw [List.nil_append, classify_next before c ys.head? ia im hys]
          rfl
        | cons d r => rfl
      rw [List.cons_append, scanLoop_cons, scanLoop_cons, hcl]
      have hrev : (c :: rest).reverse ++ before = rest.reverse ++ (c :: before) := by simp
      cases hc : classify before c rest.head? ia im with
      | push ia' im' =>
        simp only
        rw [ih rest (c :: before) (cur ++ [c]) ia' im' (by omega), hrev]
      | delimiter =>
        obtain ⟨rfl, hnext⟩ := classify_delimiter hc
        obtain ⟨rest', rfl⟩ : ∃ rest', rest = ' ' :: rest' := by
          cases rest with
          | nil => simp at hnext
          | cons d r =>
            simp only [List.head?_cons, Option.some.injEq] at hnext
            exact ⟨r, by rw [hnext]⟩
        simp only [List.cons_append, List.nil_append, List.tail_cons, List.head?_cons,
          Option.toList]
        have hrev2 : (',' :: ' ' :: rest').reverse ++ before =
            rest'.reverse ++ (' ' :: ',' :: before) := by simp
        rw [ih rest' (' ' :: ',' :: before) [] ia im
          (by simp only [List.length_cons] at hn; omega), hrev2]

theorem scanLoop_delimiter (before cur : GoString) (ia im : Int) (hia : ia ≤ 0)
    (him : im ≤ 0) :
    scanLoop before ", ".toList cur ia im = ⟨[cur], [], ia, im⟩ := by
  have hc : classify before ',' (some ' ') ia im = .delimiter := by
    have h1 : ¬ ((',' : Char) = '[' ∨ (',' : Char) = '\x7b') := by decide
    have h2 : ¬ ((',' : Char) = ']') := by decide
    have h3 : ¬ ((',' : Char) = '\x7d') := by decide
    unfold classify
    rw [if_neg (fun h => h1 h.1), if_neg (fun h => h.elim (fun a => h2 a.2) (fun a => h3 a.2)),
      if_neg (by omega), if_pos ⟨rfl, rfl⟩]
  show scanLoop before (',' :: [' ']) cur ia im = _
  rw [scanLoop_cons]
  simp only [List.head?_cons, hc, List.tail_cons, scanLoop]

/-- The element texts handed over for an interior followed by a trailing
delimiter, when the scan of the interior ends outside brackets with a
non-empty `currentValue`: those of the interior alone. -/
theorem handed_trailing (pre : GoString) (hlast : (scanLoop [] pre [] 0 0).last ≠ [])
    (hia : (scanLoop [] pre [] 0 0).ignoreArray ≤ 0)
    (him : (scanLoop [] pre [] 0 0).ignoreMap ≤ 0) :
    handed (pre ++ ", ".toList) = handed pre := by
  have happ := scanLoop_append ", ".toList (by decide) _ pre [] [] 0 0 (Nat.le_refl _)
  rw [scanLoop_delimiter _ _ _ _ hia him] at happ
  have hpos : (scanLoop [] pre [] 0 0).last.length > 0 := List.length_pos.mpr hlast
  rw [handed, handed, happ, if_pos hpos]
  simp

/-- C11 (amended): for every composite text whose interior is an interior `E`
followed by ", ", where the scan of `E` ends outside brackets with a non-empty
`currentValue` (the ", " is then a delimiter with an element before it and none
after it), `parse` returns in both modes exactly what it returns for the text
without the trailing ", ": the trailing delimiter is skipped, it is not a
failure. -/
theorem parse_trailing_delimiter (cuv : GoString → Res Value) (isMap : Bool) (a b : Char)
    (pre : GoString) (hlast : (scanLoop [] pre [] 0 0).last ≠ [])
    (hia : (scanLoop [] pre [] 0 0).ignoreArray ≤ 0)
    (him : (scanLoop [] pre [] 0 0).ignoreMap ≤ 0) :
    parse cuv (a :: (pre ++ ", ".toList) ++ [b]) isMap = parse cuv (a :: pre ++ [b]) isMap := by
  rw [parse_eq_handed cuv _ isMap (by simp), parse_eq_handed cuv _ isMap (by simp),
    interior_of_brackets, interior_of_brackets, handed_trailing pre hlast hia him]

/-- C11 at the interiors "1" (array mode) and "a=1" (map mode): with the
trailing delimiter `parse` returns what it returns without it. -/
theorem parse_trailing_delimiter_witness :
    parse (convertUnknownValue Lib.rejecting 1) ('[' :: ("1".toList ++ ", ".toList) ++ [']'])
        false =
      parse (convertUnknownValue Lib.rejecting 1) ('[' :: "1".toList ++ [']']) false ∧
    parse (convertUnknownValue Lib.rejecting 1)
        ('\x7b' :: ("a=1".toList ++ ", ".toList) ++ ['\x7d']) true =
      parse (convertUnknownValue Lib.rejecting 1) ('\x7b' :: "a=1".toList ++ ['\x7d']) true :=
  ⟨parse_trailing_delimiter _ false '[' ']' "1".toList (by decide) (by decide) (by decide),
   parse_trailing_delimiter _ true '\x7b' '\x7d' "a=1".toList (by decide) (by decide)
     (by decide)⟩

/-- C11 as stated fails at the texts "[1, ]" (array mode) and the map text of
`a=1` with a trailing ", " (map mode): `parse` returns a value, the empty
sequence and the mapping of "a" to 1, not a failure. -/
theorem parse_trailing_value :
    parse (convertUnknownValue Lib.rejecting 1) "[1, ]".toList false = .ok (.arr []) ∧
    parse (convertUnknownValue Lib.rejecting 1) "\x7ba=1, \x7d".toList true =
      .ok (.map [("a".toList, .int 1)]) := by
  decide!

/-! ## Termination of the recursion -/

theorem Split_length (s : GoString) (sep : Char) : ∀ p ∈ Split s sep, p.length ≤ s.length := by
  induction s with
  | nil =>
    intro p hp
    rw [Split, List.mem_singleton] at hp
    rw [hp]
  | cons c cs ih =>
    intro p hp
    rw [Split] at hp
    by_cases hc : c = sep
    · rw [if_pos hc] at hp
      rcases List.mem_cons.mp hp with rfl | hp
      · exact Nat.zero_le _
      · exact Nat.le_succ_of_le (ih p hp)
    · rw [if_neg hc] at hp
      cases hs : Split cs sep with
      | nil =>
        rw [hs] at hp
        rw [List.mem_singleton.mp hp]
        simp
      | cons piece pieces =>
        rw [hs] at hp ih
        rcases List.mem_cons.mp hp with rfl | hp
        · have := ih piece (List.mem_cons_self _ _)
          simp only [List.length_cons]
          omega
        · exact Nat.le_succ_of_le (ih p (List.mem_cons_of_mem _ hp))

theorem length_le_flatten_map (sep : GoString) (L : List GoString) :
    ∀ e ∈ L, e.length ≤ (L.map (fun e => e ++ sep)).flatten.length := by
  induction L with
  | nil => intro e he; exact absurd he (List.not_mem_nil e)
  | cons x xs ih =>
    intro e he
    simp only [List.map_cons, List.flatten_cons, List.length_append]
    rcases List.mem_cons.mp he with rfl | he
    · omega
    · have := ih e he
      omega

/-- Every element text that `parse` hands over is part of the interior: it is
no longer than the interior. -/
theorem handed_length (values : GoString) : ∀ e ∈ handed values, e.length ≤ values.length := by
  intro e he
  have hcat := scanLoop_concat _ values [] [] 0 0 (Nat.le_refl _)
  rw [List.nil_append] at hcat
  have hlen := congrArg List.length hcat
  rw [List.length_append] at hlen
  rw [handed] at he
  rcases List.mem_append.mp he with he | he
  · exact Nat.le_trans (length_le_flatten_map ", ".toList _ e he)
      (by rw [hlen]; exact Nat.le_add_right _ _)
  · by_cases hl : (scanLoop [] values [] 0 0).last.length > 0
    · rw [if_pos hl, List.mem_singleton] at he
      rw [he]; omega
    · rw [if_neg hl] at he
      exact absurd he (List.not_mem_nil e)

theorem handOne_congr (cuv1 cuv2 : GoString → Res Value) (isMap : Bool) (e : GoString)
    (c : GoMap × List Value) (h : ∀ s, s.length ≤ e.length → cuv1 s = cuv2 s) :
    handOne cuv1 isMap e c = handOne cuv2 isMap e c := by
  unfold handOne
  cases isMap with
  | true =>
    simp only [if_true, addToMap]
    cases hs : Split e '=' with
    | nil => rfl
    | cons key t =>
      cases t with
      | nil => rfl
      | cons val t' =>
        have hmem : val ∈ Split e '=' := by rw [hs]; simp
        simp only [h val (Split_length e '=' val hmem)]
  | false =>
    simp only [Bool.false_eq_true, if_false, addToArray, h e (Nat.le_refl _)]

theorem handOne_fuel (cuv : GoString → Res Value) (isMap : Bool) (e : GoString)
    (c : GoMap × List Value) (h : ∀ s, s.length ≤ e.length → cuv s ≠ .outOfFuel) :
    handOne cuv isMap e c ≠ .outOfFuel := by
  unfold handOne
  cases isMap with
  | true =>
    simp only [if_true, addToMap]
    cases hs : Split e '=' with
    | nil => simp [Res.map]
    | cons key t =>
      cases t with
      | nil => simp [Res.map]
      | cons val t' =>
        have hmem : val ∈ Split e '=' := by rw [hs]; simp
        have := h val (Split_length e '=' val hmem)
        cases hv : cuv val with
        | ok x => simp [Res.map, hv]
        | err x => simp [Res.map, hv]
        | panic x => simp [Res.map, hv]
        | outOfFuel => exact absurd hv this
  | false =>
    simp only [Bool.false_eq_true, if_false, addToArray]
    have := h e (Nat.le_refl _)
    cases hv : cuv e with
    | ok x => simp [Res.map, hv]
    | err x => simp [Res.map, hv]
    | panic x => simp [Res.map, hv]
    | outOfFuel => exact absurd hv this

theorem handAll_congr (cuv1 cuv2 : GoString → Res Value) (isMap : Bool) (es : List GoString)
    (c : GoMap × List Value) (h : ∀ e ∈ es, ∀ s, s.length ≤ e.length → cuv1 s = cuv2 s) :
    handAll cuv1 isMap es c = handAll cuv2 isMap es c := by
  induction es generalizing c with
  | nil => rfl
  | cons e es ih =>
    rw [handAll, handAll, handOne_congr cuv1 cuv2 isMap e c (h e (List.mem_cons_self _ _))]
    cases handOne cuv2 isMap e c with
    | ok c' => exact ih c' (fun x hx => h x (List.mem_cons_of_mem _ hx))
    | err x => rfl
    | panic x => rfl
    | outOfFuel => rfl

theorem handAll_fuel (cuv : GoString → Res Value) (isMap : Bool) (es : List GoString)
    (c : GoMap × List Value) (h : ∀ e ∈ es, ∀ s, s.length ≤ e.length → cuv s ≠ .outOfFuel) :
    handAll cuv isMap es c ≠ .outOfFuel := by
  induction es generalizing c with
  | nil => simp [handAll]
  | cons e es ih =>
    rw [handAll]
    have := handOne_fuel cuv isMap e c (h e (List.mem_cons_self _ _))
    cases hh : handOne cuv isMap e c with
    | ok c' => exact ih c' (fun x hx => h x (List.mem_cons_of_mem _ hx))
    | err x => simp
    | panic x => simp
    | outOfFuel => exact absurd hh this

theorem interior_length (val : GoString) (h : 2 ≤ val.length) :
    ((val.drop 1).take (val.length - 2)).length + 2 = val.length := by
  simp only [List.length_take, List.length_drop]
  omega

/-- The function `parse` calls `convertUnknownValue` only on texts at least two
bytes shorter than its argument: two callees that agree on these texts give
the same outcome. -/
theorem parse_congr (cuv1 cuv2 : GoString → Res Value) (val : GoString) (isMap : Bool)
    (h : ∀ s, s.length + 2 ≤ val.length → cuv1 s = cuv2 s) :
    parse cuv1 val isMap = parse cuv2 val isMap := by
  by_cases hl : 2 ≤ val.length
  · rw [parse_eq_handed cuv1 val isMap hl, parse_eq_handed cuv2 val isMap hl,
      handAll_congr cuv1 cuv2 isMap _ _ ?_]
    intro e he s hs
    have := handed_length _ e he
    have := interior_length val hl
    exact h s (by omega)
  · rw [parse, parse, if_pos (by omega), if_pos (by omega)]

theorem parse_fuel (cuv : GoString → Res Value) (val : GoString) (isMap : Bool)
    (h : ∀ s, s.length + 2 ≤ val.length → cuv s ≠ .outOfFuel) :
    parse cuv val isMap ≠ .outOfFuel := by
  by_cases hl : 2 ≤ val.length
  · rw [parse_eq_handed cuv val isMap hl]
    have : handAll cuv isMap (handed ((val.drop 1).take (val.length - 2))) ([], []) ≠
        .outOfFuel := by
      apply handAll_fuel
      intro e he s hs
      have := handed_length _ e he
      have := interior_length val hl
      exact h s (by omega)
    cases hh : handAll cuv isMap (handed ((val.drop 1).take (val.length - 2))) ([], []) with
    | ok c => simp [Res.map]
    | err x => simp [Res.map]
    | panic x => simp [Res.map]
    | outOfFuel => exact absurd hh this
  · rw [parse, if_pos (by omega)]
    simp

theorem convertValue_congr (lib : Lib) (cuv1 cuv2 : GoString → Res Value)
    (athenaType val : GoString) (h : ∀ s, s.length + 2 ≤ val.length → cuv1 s = cuv2 s) :
    convertValue lib cuv1 athenaType val = convertValue lib cuv2 athenaType val := by
  have hp : ∀ isMap, parse cuv1 val isMap = parse cuv2 val isMap :=
    fun isMap => parse_congr cuv1 cuv2 val isMap h
  unfold convertValue
  simp only [parseMap, parseArray, hp]

theorem ofParseInt_ne_outOfFuel (r : Int × Option GoError) : Res.ofParseInt r ≠ .outOfFuel := by
  unfold Res.ofParseInt
  cases r.2 <;> simp

theorem ofExcept_ne_outOfFuel {α : Type} (f : α → Value) (r : Except GoError α) :
    Res.ofExcept f r ≠ .outOfFuel := by
  cases r <;> simp [Res.ofExcept]

theorem convertValue_fuel (lib : Lib) (cuv : GoString → Res Value) (athenaType val : GoString)
    (h : ∀ s, s.length + 2 ≤ val.length → cuv s ≠ .outOfFuel) :
    convertValue lib cuv athenaType val ≠ .outOfFuel := by
  have hp : ∀ isMap, parse cuv val isMap ≠ .outOfFuel := fun isMap => parse_fuel cuv val isMap h
  rw [convertValue]
  by_cases h0 : val = []
  · rw [if_pos h0]; intro hh; cases hh
  rw [if_neg h0]
  by_cases h1 : athenaType = "smallint".toList
  · rw [if_pos h1]; exact ofParseInt_ne_outOfFuel _
  rw [if_neg h1]
  by_cases h2 : athenaType = "integer".toList
  · rw [if_pos h2]; exact ofParseInt_ne_outOfFuel _
  rw [if_neg h2]
  by_cases h3 : athenaType = "bigint".toList
  · rw [if_pos h3]; exact ofParseInt_ne_outOfFuel _
  rw [if_neg h3]
  by_cases h4 : athenaType = "boolean".toList
  · rw [if_pos h4]; split_ifs <;> (intro hh; cases hh)
  rw [if_neg h4]
  by_cases h5 : athenaType = "float".toList
  · rw [if_pos h5]; exact ofExcept_ne_outOfFuel _ _
  rw [if_neg h5]
  by_cases h6 : athenaType = "double".toList ∨ athenaType = "decimal".toList
  · rw [if_pos h6]; exact ofExcept_ne_outOfFuel _ _
  rw [if_neg h6]
  by_cases h7 : athenaType = "varchar".toList ∨ athenaType = "string".toList
  · rw [if_pos h7]; intro hh; cases hh
  rw [if_neg h7]
  by_cases h8 : athenaType = "timestamp".toList
  · rw [if_pos h8]; exact ofExcept_ne_outOfFuel _ _
  rw [if_neg h8]
  by_cases h9 : athenaType = "timestamp with time zone".toList
  · rw [if_pos h9]; exact ofExcept_ne_outOfFuel _ _
  rw [if_neg h9]
  by_cases h10 : athenaType = "date".toList
  · rw [if_pos h10]; exact ofExcept_ne_outOfFuel _ _
  rw [if_neg h10]
  by_cases h11 : athenaType = "struct".toList
  · rw [if_pos h11]; intro hh; cases hh
  rw [if_neg h11]
  by_cases h12 : athenaType = "map".toList
  · rw [if_pos h12]; exact hp true
  rw [if_neg h12]
  by_cases h13 : athenaType = "array".toList
  · rw [if_pos h13]; exact hp false
  rw [if_neg h13]
  by_cases h14 : athenaType = "row".toList
  · rw [if_pos h14]; exact hp true
  rw [if_neg h14]
  intro hh; cases hh

/-- With a budget above the length of the text, `convertUnknownValue` does not
run out of budget, and every such budget gives the same outcome. -/
theorem convertUnknownValue_stable (lib : Lib) : ∀ (fuel : Nat) (v : GoString),
    v.length < fuel →
    convertUnknownValue lib fuel v ≠ .outOfFuel ∧
    ∀ fuel', v.length < fuel' →
      convertUnknownValue lib fuel' v = convertUnknownValue lib fuel v := by
  intro fuel
  induction fuel with
  | zero => intro v h; omega
  | succ fuel ih =>
    intro v hv
    constructor
    · have hs : ∀ s : GoString, s.length + 2 ≤ v.length →
          convertUnknownValue lib fuel s ≠ .outOfFuel :=
        fun s hs => (ih s (by omega)).1
      have hc := fun t => convertValue_fuel lib (convertUnknownValue lib fuel) t v hs
      have hp := fun isMap => parse_fuel (convertUnknownValue lib fuel) v isMap hs
      rw [convertUnknownValue]
      simp only [parseMap, parseArray]
      split_ifs
      · exact hc _
      · exact hc _
      · exact hc _
      · split
        · split_ifs
          · exact hp _
          · exact hp _
          · exact hc _
        · simp
    · intro fuel' hf'
      cases fuel' with
      | zero => omega
      | succ f =>
        have hs : ∀ s : GoString, s.length + 2 ≤ v.length →
            convertUnknownValue lib f s = convertUnknownValue lib fuel s :=
          fun s hs => (ih s (by omega)).2 f (by omega)
        have hc := fun t => convertValue_congr lib (convertUnknownValue lib f)
          (convertUnknownValue lib fuel) t v hs
        have hp := fun isMap => parse_congr (convertUnknownValue lib f)
          (convertUnknownValue lib fuel) v isMap hs
        rw [convertUnknownValue, convertUnknownValue]
        simp only [parseMap, parseArray, hc, hp]

/-- C20: the recursion through `convertUnknownValue` terminates on every
input.  Every element text that `parse` hands over is at least two bytes
shorter than the argument of `parse`, and the text `addToMap` passes on is a
piece of the element text, no longer than it; so `parse` depends on its callee
only at texts at least two bytes shorter than its argument, and with a
recursion budget above the length of the text `convertUnknownValue` and
`convertValue` return an outcome of the program, the same for every such
budget. -/
theorem recursion_terminates (lib : Lib) (v : GoString) (fuel : Nat) (h : v.length < fuel) :
    (convertUnknownValue lib fuel v ≠ .outOfFuel ∧
      convertUnknownValue lib fuel v = convertUnknownValue lib (v.length + 1) v) ∧
    (∀ t, convertValue lib (convertUnknownValue lib fuel) t v ≠ .outOfFuel ∧
      convertValue lib (convertUnknownValue lib fuel) t v =
        convertValue lib (convertUnknownValue lib (v.length + 1)) t v) ∧
    (2 ≤ v.length → ∀ e ∈ handed ((v.drop 1).take (v.length - 2)),
      e.length + 2 ≤ v.length ∧ ∀ p ∈ Split e '=', p.length + 2 ≤ v.length) ∧
    (∀ (cuv1 cuv2 : GoString → Res Value) (isMap : Bool),
      (∀ s, s.length + 2 ≤ v.length → cuv1 s = cuv2 s) →
      parse cuv1 v isMap = parse cuv2 v isMap) := by
  refine ⟨⟨(convertUnknownValue_stable lib fuel v h).1,
    (convertUnknownValue_stable lib (v.length + 1) v (Nat.lt_succ_self _)).2 fuel h⟩,
    fun t => ⟨?_, ?_⟩, ?_, fun cuv1 cuv2 isMap hs => parse_congr cuv1 cuv2 v isMap hs⟩
  · exact convertValue_fuel lib _ t v
      (fun s hs => (convertUnknownValue_stable lib fuel s (by omega)).1)
  · exact convertValue_congr lib _ _ t v (fun s hs =>
      ((convertUnknownValue_stable lib fuel s (by omega)).2 (v.length + 1) (by omega)).symm)
  · intro hl e he
    have h1 := handed_length _ e he
    have h2 := interior_length v hl
    refine ⟨by omega, fun p hp => ?_⟩
    have := Split_length e '=' p hp
    omega

/-- C20 at the map text of the entry `a=[1, 2]` (10 bytes) with the budget 20:
the outcome is not an exhausted budget, it is the outcome for the budget 11,
and it is the mapping of "a" to the (empty) sequence. -/
theorem recursion_terminates_witness :
    convertUnknownValue Lib.rejecting 20 "\x7ba=[1, 2]\x7d".toList ≠ .outOfFuel ∧
    convertUnknownValue Lib.rejecting 20 "\x7ba=[1, 2]\x7d".toList =
      convertUnknownValue Lib.rejecting ("\x7ba=[1, 2]\x7d".toList.length + 1)
        "\x7ba=[1, 2]\x7d".toList ∧
    convertUnknownValue Lib.rejecting 20 "\x7ba=[1, 2]\x7d".toList =
      .ok (.map [("a".toList, .arr [])]) :=
  ⟨(recursion_terminates Lib.rejecting "\x7ba=[1, 2]\x7d".toList 20 (by decide)).1.1,
   (recursion_terminates Lib.rejecting "\x7ba=[1, 2]\x7d".toList 20 (by decide)).1.2,
   by decide!⟩

end Athena
